import Mathlib

/-!
Verification of the tool lifecycle ledger and projection engine of pulse-api.

The definitions below are a shallow embedding of the JavaScript source:
* `src/controllers/inventoryController.js` — `createInventoryTool`,
  `createHistoricalTools`, `updateInventoryTool`, `deleteMaintenanceHistory`;
* `src/routes/factoryRoutes.js` — the `latest_tool_status` /
  `latest_status_on_machine` CTEs (`DISTINCT ON (tool_id) ... ORDER BY
  tool_id, timestamp DESC`) and the active-tool filters built on them.

Database rows become Lean structures, the relevant tables become lists held
in a `DB` state, SQL statements become list transformations, and JavaScript
numbers become `Int` (all the arithmetic performed by the code on these
fields is exact integer-style arithmetic; no rounding behaviour is involved
in any property below).  JavaScript truthiness of optional numeric/string
request fields is modelled explicitly by `truthyI` / `truthyS` / `jsOr`.
-/

namespace PulseApi

/-- JS `x || d` for an optional numeric request field (`0` is falsy). -/
def jsOr (o : Option Int) (d : Int) : Int :=
  match o with
  | none => d
  | some v => if v = 0 then d else v

/-- JS truthiness of an optional numeric request field. -/
def truthyI (o : Option Int) : Bool :=
  match o with
  | none => false
  | some v => v != 0

/-- JS truthiness of an optional string request field (`""` is falsy). -/
def truthyS (o : Option String) : Bool :=
  match o with
  | none => false
  | some s => s != ""

/-- JS `format ? format.trim().toUpperCase() : null` (also used for
`web_width`). -/
def normInput (o : Option String) : Option String :=
  match o with
  | none => none
  | some s => if s = "" then none else some s.trim.toUpper

/-- JS `currentTool.format ? currentTool.format.toUpperCase() : null`
(the stored value is upper-cased but not trimmed before comparison). -/
def normStored (o : Option String) : Option String :=
  match o with
  | none => none
  | some s => if s = "" then none else some s.toUpper

/-- A row of `tool_maintenance_history`. -/
structure MEvent where
  history_id : Nat
  tool_id : Nat
  event_type : String
  tool_life_at_event : Int
  life_consumed : Int
  hlp_count_at_event : Int
  event_sequence : Int
  timestamp : Int
  is_deleted : Bool
deriving Repr, DecidableEq

/-- A row of `centralized_inventory` (the current-state projection). -/
structure Tool where
  inventory_id : Nat
  tool_id : Nat
  material_id : Int
  batch_id : String
  tool_name : String
  type : String
  format : Option String
  status : String
  current_factory_id : Int
  manufacturer : Option String
  web_width : Option String
  current_tool_life : Int
  baseline_tool_life : Int
  number_of_regrinding : Int
  number_of_resegmentation : Int
  total_hlp : Int
deriving Repr, DecidableEq

/-- A row of `daily_tool_summary` (per tool / machine / day rollup).
The calendar date is an opaque bucket key, kept abstract as an `Int`. -/
structure Rollup where
  tool_id : Nat
  machine_id : Nat
  summary_date : Int
  total_ts_revolutions : Int
  total_hlp_run : Int
deriving Repr, DecidableEq

/-- The persistent state touched by the lifecycle core: the projection
table, the maintenance ledger, the daily rollups and the set of known
factory ids, together with the id sequences of the three tables. -/
structure DB where
  inventory : List Tool
  ledger : List MEvent
  rollups : List Rollup
  factories : List Int
  next_inventory_id : Nat
  next_tool_id : Nat
  next_history_id : Nat
deriving Repr, DecidableEq

/-- An empty database holding the given factories. -/
def initDB (fs : List Int) : DB :=
  { inventory := [], ledger := [], rollups := [], factories := fs
    next_inventory_id := 1, next_tool_id := 1, next_history_id := 1 }

/-- The authenticated request user (`req.user`). -/
structure User where
  role : String
  factory_id : Int
deriving Repr, DecidableEq

/-! ## Rollup aggregator

`createHistoricalTools` merges usage deltas into `daily_tool_summary` with
`INSERT ... ON CONFLICT (tool_id, machine_id, summary_date) DO UPDATE SET
total_ts_revolutions = daily_tool_summary.total_ts_revolutions +
EXCLUDED.total_ts_revolutions, total_hlp_run = daily_tool_summary.total_hlp_run
+ EXCLUDED.total_hlp_run` (inventoryController.js:546-571). -/

/-- Does this rollup row carry the composite key? -/
def Rollup.hasKey (r : Rollup) (toolId machineId : Nat) (date : Int) : Bool :=
  r.tool_id == toolId && r.machine_id == machineId && r.summary_date == date

/-- The upsert-with-add on `daily_tool_summary`: insert the deltas when no
row exists for the key, otherwise add them to the existing accumulators. -/
def mergeRollup (rs : List Rollup) (toolId machineId : Nat) (date : Int)
    (rev hlp : Int) : List Rollup :=
  if rs.any (fun r => r.hasKey toolId machineId date) then
    rs.map (fun r =>
      if r.hasKey toolId machineId date then
        { r with total_ts_revolutions := r.total_ts_revolutions + rev
                 total_hlp_run := r.total_hlp_run + hlp }
      else r)
  else
    rs ++ [{ tool_id := toolId, machine_id := machineId, summary_date := date
             total_ts_revolutions := rev, total_hlp_run := hlp }]

/-- Look up the rollup row for a key. -/
def findRollup (rs : List Rollup) (toolId machineId : Nat) (date : Int) :
    Option Rollup :=
  rs.find? (fun r => r.hasKey toolId machineId date)

/-! ## Active-entity resolver

`factoryRoutes.js` resolves the currently active tool with the CTE
`SELECT DISTINCT ON (tool_id) tool_id, status, machine_id FROM drive_status
ORDER BY tool_id, timestamp DESC` (lines 219-236, and machine-scoped at
lines 354-367), i.e. one record per `tool_id`, the one with the maximal
`timestamp`.  The SQL sort order does not determine which record is kept
when several share the maximal timestamp; the scan below keeps the latest
inserted one, the tie policy the specification prescribes. -/

/-- A row of `drive_status`. -/
structure StatusRecord where
  tool_id : Nat
  machine_id : Nat
  status : String
  timestamp : Int
deriving Repr, DecidableEq

/-- One step of the grouped max-by-timestamp scan for group `k`. -/
def latestStep {κ : Type} [DecidableEq κ] (key : StatusRecord → κ) (k : κ)
    (acc : Option StatusRecord) (r : StatusRecord) : Option StatusRecord :=
  if key r = k then
    match acc with
    | none => some r
    | some b => if b.timestamp ≤ r.timestamp then some r else some b
  else acc

/-- The latest status record of group `k` in a stream (in insertion
order): maximal timestamp, ties going to the latest inserted record. -/
def latestForKey {κ : Type} [DecidableEq κ] (stream : List StatusRecord)
    (key : StatusRecord → κ) (k : κ) : Option StatusRecord :=
  stream.foldl (latestStep key k) none

/-- The tool ids appearing in a stream (the groups of the `DISTINCT ON`). -/
def toolIdsOf (stream : List StatusRecord) : List Nat :=
  (stream.map (fun r => r.tool_id)).dedup

/-- The tool-selection core of `getActiveMachinesByType` /
`getToolChartData`: the latest status of every tool is resolved over the
full stream first (the `latest_tool_status` CTE), and only the resolved
record is then tested against `status = 'in_drive'` and the
case-insensitive tool-type match with the `tools` table. -/
def activeToolIds (stream : List StatusRecord) (toolType : Nat → String)
    (ty : String) : List Nat :=
  (toolIdsOf stream).filter (fun tid =>
    match latestForKey stream (fun r => r.tool_id) tid with
    | some r => r.status == "in_drive" && (toolType tid).toUpper == ty.toUpper
    | none => false)

/-- The worked stream of the specification: three records of one tool, with
timestamps 1, 5 and 3 and statuses in_drive, removed, in_drive. -/
def exampleStream : List StatusRecord :=
  [{ tool_id := 1, machine_id := 1, status := "in_drive", timestamp := 1 },
   { tool_id := 1, machine_id := 1, status := "removed", timestamp := 5 },
   { tool_id := 1, machine_id := 1, status := "in_drive", timestamp := 3 }]

section ResolverLemmas

variable {κ : Type} [DecidableEq κ] {key : StatusRecord → κ} {k : κ}

/-- A scan started from a record never returns `none`. -/
theorem foldl_latest_ne_none (stream : List StatusRecord) :
    ∀ b : StatusRecord, stream.foldl (latestStep key k) (some b) ≠ none := by
  induction stream with
  | nil => intro b h; exact Option.noConfusion h
  | cons a as ih =>
    intro b
    simp only [List.foldl_cons, latestStep]
    by_cases hk : key a = k
    · simp only [hk, if_pos rfl]
      by_cases hts : b.timestamp ≤ a.timestamp
      · simp only [if_pos hts]; exact ih a
      · simp only [if_neg hts]; exact ih b
    · simp only [if_neg hk]; exact ih b

/-- The scan never decreases the timestamp of the running accumulator. -/
theorem foldl_latest_mono (stream : List StatusRecord) :
    ∀ b r : StatusRecord, stream.foldl (latestStep key k) (some b) = some r →
      b.timestamp ≤ r.timestamp := by
  induction stream with
  | nil =>
    intro b r h
    cases h; exact le_refl _
  | cons a as ih =>
    intro b r h
    simp only [List.foldl_cons, latestStep] at h
    by_cases hk : key a = k
    · simp only [hk, if_pos rfl] at h
      by_cases hts : b.timestamp ≤ a.timestamp
      · simp only [if_pos hts] at h
        exact le_trans hts (ih a r h)
      · simp only [if_neg hts] at h
        exact ih b r h
    · simp only [if_neg hk] at h
      exact ih b r h

/-- Main characterisation of the scan, with a general accumulator: either
the accumulator survives and every group member of the stream is strictly
older, or the result lies in the stream, bounds every group member, and is
strictly newer than every later group member. -/
theorem foldl_latest_some (stream : List StatusRecord) :
    ∀ acc : Option StatusRecord, ∀ r : StatusRecord,
      stream.foldl (latestStep key k) acc = some r →
      (acc = some r ∧ ∀ x ∈ stream, key x = k → x.timestamp < r.timestamp) ∨
      (key r = k ∧
        (∃ l1 l2, stream = l1 ++ r :: l2 ∧
          ∀ x ∈ l2, key x = k → x.timestamp < r.timestamp) ∧
        (∀ x ∈ stream, key x = k → x.timestamp ≤ r.timestamp)) := by
  induction stream with
  | nil =>
    intro acc r h
    left
    exact ⟨h, by intro x hx; exact absurd hx (List.not_mem_nil x)⟩
  | cons a as ih =>
    intro acc r h
    simp only [List.foldl_cons] at h
    have hstep : as.foldl (latestStep key k) (latestStep key k acc a) = some r := h
    have hbound : ∀ c : StatusRecord, latestStep key k acc a = some c →
        c.timestamp ≤ r.timestamp := by
      intro c hc
      rw [hc] at hstep
      exact foldl_latest_mono as c r hstep
    rcases ih (latestStep key k acc a) r hstep with ⟨hacc, hstrict⟩ | ⟨hkey, ⟨l1, l2, hsplit, hafter⟩, hle⟩
    · -- the accumulated record after consuming `a` survived the rest
      unfold latestStep at hacc
      by_cases hk : key a = k
      · simp only [hk, if_pos rfl] at hacc
        cases acc with
        | none =>
          -- the survivor is `a` itself
          cases hacc
          right
          refine ⟨hk, ⟨[], as, rfl, hstrict⟩, ?_⟩
          intro x hx hxk
          rcases List.mem_cons.mp hx with hxa | hxas
          · subst hxa; exact le_refl _
          · exact le_of_lt (hstrict x hxas hxk)
        | some b =>
          by_cases hts : b.timestamp ≤ a.timestamp
          · simp only [if_pos hts] at hacc
            cases hacc
            right
            refine ⟨hk, ⟨[], as, rfl, hstrict⟩, ?_⟩
            intro x hx hxk
            rcases List.mem_cons.mp hx with hxa | hxas
            · subst hxa; exact le_refl _
            · exact le_of_lt (hstrict x hxas hxk)
          · simp only [if_neg hts] at hacc
            left
            refine ⟨hacc, ?_⟩
            intro x hx hxk
            rcases List.mem_cons.mp hx with hxa | hxas
            · subst hxa
              cases hacc
              exact lt_of_not_le hts
            · exact hstrict x hxas hxk
      · simp only [if_neg hk] at hacc
        left
        refine ⟨hacc, ?_⟩
        intro x hx hxk
        rcases List.mem_cons.mp hx with hxa | hxas
        · subst hxa; exact absurd hxk hk
        · exact hstrict x hxas hxk
    · -- the result was found inside `as`
      right
      refine ⟨hkey, ⟨a :: l1, l2, by rw [hsplit]; rfl, hafter⟩, ?_⟩
      intro x hx hxk
      rcases List.mem_cons.mp hx with hxa | hxas
      · -- `a` entered the accumulator, whose timestamp never decreases
        subst hxa
        unfold latestStep at hbound
        by_cases hk : key x = k
        · simp only [hk, if_pos rfl] at hbound
          cases acc with
          | none => exact hbound x rfl
          | some b =>
            by_cases hts : b.timestamp ≤ x.timestamp
            · simp only [if_pos hts] at hbound
              exact hbound x rfl
            · simp only [if_neg hts] at hbound
              exact le_trans (le_of_lt (lt_of_not_le hts)) (hbound b rfl)
        · exact absurd hxk hk
      · exact hle x hxas hxk

/-- A group is resolved to `none` exactly when the stream holds no record
of it. -/
theorem latestForKey_eq_none_iff (stream : List StatusRecord) :
    latestForKey stream key k = none ↔ ∀ x ∈ stream, key x ≠ k := by
  constructor
  · intro h x hx hxk
    induction stream generalizing x with
    | nil => exact absurd hx (List.not_mem_nil x)
    | cons a as ih =>
      unfold latestForKey at h
      simp only [List.foldl_cons] at h
      by_cases hk : key a = k
      · exfalso
        unfold latestStep at h
        simp only [hk, if_pos rfl] at h
        exact foldl_latest_ne_none as a h
      · unfold latestStep at h
        simp only [if_neg hk] at h
        rcases List.mem_cons.mp hx with hxa | hxas
        · subst hxa; exact hk hxk
        · exact ih h x hxas hxk
  · intro hall
    induction stream with
    | nil => rfl
    | cons a as ih =>
      unfold latestForKey
      simp only [List.foldl_cons]
      unfold latestStep
      simp only [if_neg (hall a (List.mem_cons_self a as))]
      exact ih (fun x hx => hall x (List.mem_cons_of_mem a hx))

end ResolverLemmas

/-- The t=5 "removed" record of `exampleStream`. -/
def removedRec : StatusRecord :=
  { tool_id := 1, machine_id := 1, status := "removed", timestamp := 5 }

/-! The SQL `DISTINCT ON (tool_id) ... ORDER BY tool_id, timestamp DESC`
does not specify which of several rows sharing the maximal timestamp is
kept.  `latestStep` above is the determinization the specification
prescribes (last write wins); the scan below is parametric in an
arbitrary determinization of the equal-timestamp order, so that what the
code does guarantee can be stated for every admissible tie policy. -/

/-- One step of the grouped scan under an arbitrary determinization of
the equal-timestamp order: a strictly newer incoming group record always
replaces the accumulator, a strictly older one never does, and on a
timestamp tie the kept record is whatever the policy `tie` selects
(`true` keeps the incoming record, `false` the accumulated one). -/
def latestStepBy {κ : Type} [DecidableEq κ]
    (tie : StatusRecord → StatusRecord → Bool) (key : StatusRecord → κ)
    (k : κ) (acc : Option StatusRecord) (r : StatusRecord) :
    Option StatusRecord :=
  if key r = k then
    match acc with
    | none => some r
    | some b =>
      if b.timestamp < r.timestamp then some r
      else if r.timestamp < b.timestamp then some b
      else if tie b r then some r else some b
  else acc

/-- The record resolved for group `k` under the determinization `tie`. -/
def latestForKeyBy {κ : Type} [DecidableEq κ]
    (tie : StatusRecord → StatusRecord → Bool)
    (stream : List StatusRecord) (key : StatusRecord → κ) (k : κ) :
    Option StatusRecord :=
  stream.foldl (latestStepBy tie key k) none

/-- A step keeps the accumulator or replaces it by the incoming group
record. -/
theorem latestStepBy_cases {κ : Type} [DecidableEq κ]
    (tie : StatusRecord → StatusRecord → Bool) (key : StatusRecord → κ)
    (k : κ) (acc : Option StatusRecord) (a : StatusRecord) :
    latestStepBy tie key k acc a = acc ∨
    (latestStepBy tie key k acc a = some a ∧ key a = k) := by
  unfold latestStepBy
  by_cases hk : key a = k
  · rw [if_pos hk]
    cases acc with
    | none => exact Or.inr ⟨rfl, hk⟩
    | some b =>
      dsimp only
      by_cases h1 : b.timestamp < a.timestamp
      · rw [if_pos h1]
        exact Or.inr ⟨rfl, hk⟩
      · rw [if_neg h1]
        by_cases h2 : a.timestamp < b.timestamp
        · rw [if_pos h2]
          exact Or.inl rfl
        · rw [if_neg h2]
          by_cases h3 : tie b a = true
          · rw [if_pos h3]
            exact Or.inr ⟨rfl, hk⟩
          · rw [if_neg h3]
            exact Or.inl rfl
  · rw [if_neg hk]
    exact Or.inl rfl

/-- A group step always yields a record whose timestamp dominates both
the incoming group record and the accumulator. -/
theorem latestStepBy_absorbs {κ : Type} [DecidableEq κ]
    (tie : StatusRecord → StatusRecord → Bool) (key : StatusRecord → κ)
    (k : κ) (acc : Option StatusRecord) (a : StatusRecord)
    (hk : key a = k) :
    ∃ c, latestStepBy tie key k acc a = some c ∧
      a.timestamp ≤ c.timestamp ∧
      ∀ b, acc = some b → b.timestamp ≤ c.timestamp := by
  unfold latestStepBy
  rw [if_pos hk]
  cases acc with
  | none =>
    exact ⟨a, rfl, le_refl _, fun b hb => Option.noConfusion hb⟩
  | some b =>
    dsimp only
    by_cases h1 : b.timestamp < a.timestamp
    · rw [if_pos h1]
      refine ⟨a, rfl, le_refl _, ?_⟩
      intro b0 hb0
      injection hb0 with h0
      subst h0
      exact le_of_lt h1
    · rw [if_neg h1]
      by_cases h2 : a.timestamp < b.timestamp
      · rw [if_pos h2]
        refine ⟨b, rfl, le_of_lt h2, ?_⟩
        intro b0 hb0
        injection hb0 with h0
        subst h0
        exact le_refl _
      · rw [if_neg h2]
        by_cases h3 : tie b a = true
        · rw [if_pos h3]
          refine ⟨a, rfl, le_refl _, ?_⟩
          intro b0 hb0
          injection hb0 with h0
          subst h0
          exact le_of_not_lt h2
        · rw [if_neg h3]
          refine ⟨b, rfl, le_of_not_lt h1, ?_⟩
          intro b0 hb0
          injection hb0 with h0
          subst h0
          exact le_refl _

/-- The timestamp of a `some` accumulator never decreases along the scan,
for every determinization. -/
theorem foldl_latestBy_mono {κ : Type} [DecidableEq κ]
    (tie : StatusRecord → StatusRecord → Bool) (key : StatusRecord → κ)
    (k : κ) (stream : List StatusRecord) :
    ∀ b r : StatusRecord,
      stream.foldl (latestStepBy tie key k) (some b) = some r →
      b.timestamp ≤ r.timestamp := by
  induction stream with
  | nil =>
    intro b r h
    injection h with h0
    subst h0
    exact le_refl _
  | cons a as ih =>
    intro b r h
    rw [List.foldl_cons] at h
    by_cases hk : key a = k
    · rcases latestStepBy_absorbs tie key k (some b) a hk with ⟨c, hc, _, hbc⟩
      rw [hc] at h
      exact le_trans (hbc b rfl) (ih c r h)
    · have hstep : latestStepBy tie key k (some b) a = some b := by
        unfold latestStepBy
        rw [if_neg hk]
      rw [hstep] at h
      exact ih b r h

/-- A scan started from a record never returns `none`, for every
determinization. -/
theorem foldl_latestBy_ne_none {κ : Type} [DecidableEq κ]
    (tie : StatusRecord → StatusRecord → Bool) (key : StatusRecord → κ)
    (k : κ) (stream : List StatusRecord) :
    ∀ b : StatusRecord,
      stream.foldl (latestStepBy tie key k) (some b) ≠ none := by
  induction stream with
  | nil =>
    intro b h
    exact Option.noConfusion h
  | cons a as ih =>
    intro b
    rw [List.foldl_cons]
    rcases latestStepBy_cases tie key k (some b) a with heq | ⟨heq, _⟩
    · rw [heq]
      exact ih b
    · rw [heq]
      exact ih a

/-- Characterisation of the scan under any determinization: a `some`
result either is the untouched accumulator or lies in the stream's group,
and it bounds the timestamp of every group member of the stream. -/
theorem foldl_latestBy_some {κ : Type} [DecidableEq κ]
    (tie : StatusRecord → StatusRecord → Bool) (key : StatusRecord → κ)
    (k : κ) (stream : List StatusRecord) :
    ∀ (acc : Option StatusRecord) (r : StatusRecord),
      stream.foldl (latestStepBy tie key k) acc = some r →
      (acc = some r ∨ (r ∈ stream ∧ key r = k)) ∧
      (∀ x ∈ stream, key x = k → x.timestamp ≤ r.timestamp) := by
  induction stream with
  | nil =>
    intro acc r h
    exact ⟨Or.inl h, fun x hx => absurd hx (List.not_mem_nil x)⟩
  | cons a as ih =>
    intro acc r h
    rw [List.foldl_cons] at h
    rcases ih (latestStepBy tie key k acc a) r h with ⟨hmem, hbound⟩
    have hmono : ∀ c, latestStepBy tie key k acc a = some c →
        c.timestamp ≤ r.timestamp := by
      intro c hc
      rw [hc] at h
      exact foldl_latestBy_mono tie key k as c r h
    constructor
    · rcases hmem with hacc | ⟨hras, hrk⟩
      · rcases latestStepBy_cases tie key k acc a with heq | ⟨heq, hak⟩
        · rw [heq] at hacc
          exact Or.inl hacc
        · rw [heq] at hacc
          injection hacc with h0
          subst h0
          exact Or.inr ⟨List.mem_cons_self a as, hak⟩
      · exact Or.inr ⟨List.mem_cons_of_mem a hras, hrk⟩
    · intro x hx hxk
      rcases List.mem_cons.mp hx with rfl | hxas
      · rcases latestStepBy_absorbs tie key k acc x hxk with ⟨c, hc, hxc, _⟩
        exact le_trans hxc (hmono c hc)
      · exact hbound x hxas hxk

/-- A group is resolved to `none` exactly when the stream holds no record
of it, for every determinization. -/
theorem latestForKeyBy_eq_none_iff {κ : Type} [DecidableEq κ]
    (tie : StatusRecord → StatusRecord → Bool)
    (stream : List StatusRecord) (key : StatusRecord → κ) (k : κ) :
    latestForKeyBy tie stream key k = none ↔ ∀ x ∈ stream, key x ≠ k := by
  constructor
  · intro h x hx hxk
    induction stream generalizing x with
    | nil => exact absurd hx (List.not_mem_nil x)
    | cons a as ih =>
      unfold latestForKeyBy at h
      rw [List.foldl_cons] at h
      by_cases hk : key a = k
      · exfalso
        have hstep : latestStepBy tie key k none a = some a := by
          unfold latestStepBy
          rw [if_pos hk]
        rw [hstep] at h
        exact foldl_latestBy_ne_none tie key k as a h
      · have hstep : latestStepBy tie key k none a = none := by
          unfold latestStepBy
          rw [if_neg hk]
        rw [hstep] at h
        rcases List.mem_cons.mp hx with rfl | hxas
        · exact hk hxk
        · exact ih h x hxas hxk
  · intro hall
    induction stream with
    | nil => rfl
    | cons a as ih =>
      unfold latestForKeyBy
      rw [List.foldl_cons]
      have hstep : latestStepBy tie key k none a = none := by
        unfold latestStepBy
        rw [if_neg (hall a (List.mem_cons_self a as))]
      rw [hstep]
      exact ih (fun x hx => hall x (List.mem_cons_of_mem a hx))

/-- When one group record is strictly newer than every other group
record, every determinization resolves the group to it. -/
theorem latestForKeyBy_unique_max {κ : Type} [DecidableEq κ]
    (tie : StatusRecord → StatusRecord → Bool)
    (stream : List StatusRecord) (key : StatusRecord → κ) (k : κ)
    (r : StatusRecord) (hr : r ∈ stream) (hrk : key r = k)
    (hdom : ∀ x ∈ stream, key x = k → x ≠ r →
      x.timestamp < r.timestamp) :
    latestForKeyBy tie stream key k = some r := by
  cases h : latestForKeyBy tie stream key k with
  | none =>
    rw [latestForKeyBy_eq_none_iff] at h
    exact absurd hrk (h r hr)
  | some r0 =>
    rcases foldl_latestBy_some tie key k stream none r0 h
      with ⟨hmem, hbound⟩
    rcases hmem with hacc | ⟨hr0s, hr0k⟩
    · exact Option.noConfusion hacc
    · by_cases hrr : r0 = r
      · rw [hrr]
      · have h1 := hdom r0 hr0s hr0k hrr
        have h2 := hbound r hr hrk
        exact absurd h2 (not_le_of_lt h1)

/-- The earlier-inserted record of a timestamp tie. -/
def tieRecA : StatusRecord :=
  { tool_id := 1, machine_id := 1, status := "in_drive", timestamp := 5 }

/-- The later-inserted record of the same tie. -/
def tieRecB : StatusRecord :=
  { tool_id := 1, machine_id := 2, status := "removed", timestamp := 5 }

/-- C3 counterexample: the tie-break clause "ties broken by insertion
order (last write wins)" is not a property of the code.  The SQL
`DISTINCT ON (tool_id) ... ORDER BY tool_id, timestamp DESC` leaves the
relative order of rows sharing the maximal timestamp unspecified, so
keep-accumulated and keep-incoming are both admissible determinizations
of it; on a stream of two records with equal timestamps they resolve
differently, and the keep-accumulated one returns the earlier-inserted
record, not the last-written one. -/
theorem resolveActive_tie_counterexample :
    tieRecA.tool_id = tieRecB.tool_id ∧
    tieRecA.timestamp = tieRecB.timestamp ∧
    tieRecA ≠ tieRecB ∧
    latestForKeyBy (fun _ _ => false) [tieRecA, tieRecB]
      (fun r => r.tool_id) 1 = some tieRecA ∧
    latestForKeyBy (fun _ _ => true) [tieRecA, tieRecB]
      (fun r => r.tool_id) 1 = some tieRecB ∧
    ¬ latestForKeyBy (fun _ _ => false) [tieRecA, tieRecB]
      (fun r => r.tool_id) 1 = some tieRecB := by
  refine ⟨rfl, rfl, by decide, by decide, by decide, by decide⟩

/-- C3 (amended): for every status stream, every grouping key and every
determinization `tie` of the equal-timestamp order that the SQL
`DISTINCT ON (tool_id) ... ORDER BY tool_id, timestamp DESC` leaves
unspecified, the resolution returns exactly one record per inhabited
group (`none` exactly when the group is empty), the resolved record
belongs to the group and carries its maximal timestamp, and whenever one
group record is strictly newer than every other group record the
resolution returns exactly that record, independently of the
determinization — in particular the worked stream [(t=1,"in_drive"),
(t=5,"removed"), (t=3,"in_drive")] of one tool resolves to the t=5
"removed" record under every determinization.  Which of several records
sharing the maximal timestamp is kept is not specified by the code. -/
theorem resolveActive_max_timestamp :
    (∀ (κ : Type) [DecidableEq κ]
        (tie : StatusRecord → StatusRecord → Bool)
        (stream : List StatusRecord) (key : StatusRecord → κ) (k : κ)
        (r : StatusRecord),
        latestForKeyBy tie stream key k = some r →
          r ∈ stream ∧ key r = k ∧
          ∀ x ∈ stream, key x = k → x.timestamp ≤ r.timestamp) ∧
    (∀ (κ : Type) [DecidableEq κ]
        (tie : StatusRecord → StatusRecord → Bool)
        (stream : List StatusRecord) (key : StatusRecord → κ) (k : κ),
        latestForKeyBy tie stream key k = none ↔
          ∀ x ∈ stream, key x ≠ k) ∧
    (∀ (κ : Type) [DecidableEq κ]
        (tie : StatusRecord → StatusRecord → Bool)
        (stream : List StatusRecord) (key : StatusRecord → κ) (k : κ)
        (r : StatusRecord), r ∈ stream → key r = k →
        (∀ x ∈ stream, key x = k → x ≠ r →
          x.timestamp < r.timestamp) →
        latestForKeyBy tie stream key k = some r) ∧
    (∀ tie : StatusRecord → StatusRecord → Bool,
        latestForKeyBy tie exampleStream (fun r => r.tool_id) 1 =
          some removedRec) := by
  refine ⟨?_, ?_, ?_, ?_⟩
  · intro κ _ tie stream key k r h
    rcases foldl_latestBy_some tie key k stream none r h
      with ⟨hmem, hbound⟩
    rcases hmem with hacc | ⟨hrs, hrk⟩
    · exact Option.noConfusion hacc
    · exact ⟨hrs, hrk, hbound⟩
  · intro κ _ tie stream key k
    exact latestForKeyBy_eq_none_iff tie stream key k
  · intro κ _ tie stream key k r hr hrk hdom
    exact latestForKeyBy_unique_max tie stream key k r hr hrk hdom
  · intro tie
    exact latestForKeyBy_unique_max tie exampleStream (fun r => r.tool_id)
      1 removedRec (by decide) rfl (by decide)

/-- The amended C3 instantiated concretely: under the keep-accumulated
determinization, the worked stream resolves to the t=5 "removed" record,
which belongs to the group and dominates every timestamp; and the
strict-dominance rule at the same inputs returns exactly it. -/
theorem resolveActive_max_timestamp_witness :
    (removedRec ∈ exampleStream ∧ removedRec.tool_id = 1 ∧
      ∀ x ∈ exampleStream, x.tool_id = 1 →
        x.timestamp ≤ removedRec.timestamp) ∧
    latestForKeyBy (fun _ _ => false) exampleStream
      (fun r => r.tool_id) 1 = some removedRec :=
  ⟨resolveActive_max_timestamp.1 Nat (fun _ _ => false) exampleStream
      (fun r => r.tool_id) 1 removedRec (by decide),
   resolveActive_max_timestamp.2.2.1 Nat (fun _ _ => false) exampleStream
      (fun r => r.tool_id) 1 removedRec (by decide) rfl (by decide)⟩

/-- C9: membership in the active-tool result is decided by testing the
predicate on the record resolved over the full unfiltered stream for the
key — so a tool whose latest status is not "in_drive" (e.g. "removed") is
never reported active, regardless of earlier records. -/
theorem active_filter_after_resolution :
    (∀ (stream : List StatusRecord) (toolType : Nat → String) (ty : String)
        (tid : Nat),
        tid ∈ activeToolIds stream toolType ty ↔
          ∃ r, latestForKey stream (fun x => x.tool_id) tid = some r ∧
            r.status = "in_drive" ∧ (toolType tid).toUpper = ty.toUpper) ∧
    (∀ (stream : List StatusRecord) (toolType : Nat → String) (ty : String)
        (tid : Nat) (r : StatusRecord),
        latestForKey stream (fun x => x.tool_id) tid = some r →
        r.status ≠ "in_drive" →
        tid ∉ activeToolIds stream toolType ty) := by
  have hmem : ∀ (stream : List StatusRecord) (tid : Nat) (r : StatusRecord),
      latestForKey stream (fun x => x.tool_id) tid = some r →
      tid ∈ toolIdsOf stream := by
    intro stream tid r h
    rcases foldl_latest_some stream none r h with ⟨hacc, _⟩ | ⟨hkey, ⟨l1, l2, hsplit, _⟩, _⟩
    · exact Option.noConfusion hacc
    · unfold toolIdsOf
      rw [List.mem_dedup]
      refine List.mem_map.mpr ⟨r, ?_, hkey⟩
      rw [hsplit]
      exact List.mem_append.mpr (Or.inr (List.mem_cons_self r l2))
  have hchar : ∀ (stream : List StatusRecord) (toolType : Nat → String)
      (ty : String) (tid : Nat),
      tid ∈ activeToolIds stream toolType ty ↔
        ∃ r, latestForKey stream (fun x => x.tool_id) tid = some r ∧
          r.status = "in_drive" ∧ (toolType tid).toUpper = ty.toUpper := by
    intro stream toolType ty tid
    constructor
    · intro h
      rcases List.mem_filter.mp h with ⟨_, hpred⟩
      cases hl : latestForKey stream (fun x => x.tool_id) tid with
      | none => rw [hl] at hpred; exact absurd hpred (by simp)
      | some r =>
        rw [hl] at hpred
        simp only [Bool.and_eq_true, beq_iff_eq] at hpred
        exact ⟨r, rfl, hpred.1, hpred.2⟩
    · rintro ⟨r, hl, hst, hty⟩
      refine List.mem_filter.mpr ⟨hmem stream tid r hl, ?_⟩
      rw [hl]
      simp only [Bool.and_eq_true, beq_iff_eq]
      exact ⟨hst, hty⟩
  refine ⟨hchar, ?_⟩
  intro stream toolType ty tid r hl hst h
  rcases (hchar stream toolType ty tid).mp h with ⟨r', hl', hst', _⟩
  rw [hl] at hl'
  cases hl'
  exact hst hst'

/-- Witness for C9: on the worked stream, tool 1 has latest status
"removed" (with an earlier "in_drive" record) and is not reported active. -/
theorem active_filter_after_resolution_witness :
    1 ∉ activeToolIds exampleStream (fun _ => "cutting") "cutting" :=
  active_filter_after_resolution.2 exampleStream (fun _ => "cutting")
    "cutting" 1 removedRec (by decide) (by decide)

/-- Updating the accumulators of a row keeps its key. -/
theorem hasKey_update (r : Rollup) (toolId machineId : Nat) (date : Int)
    (rev hlp : Int) (t m : Nat) (d : Int) :
    (if r.hasKey toolId machineId date then
        { r with total_ts_revolutions := r.total_ts_revolutions + rev
                 total_hlp_run := r.total_hlp_run + hlp }
      else r).hasKey t m d = r.hasKey t m d := by
  by_cases h : r.hasKey toolId machineId date
  · simp only [if_pos h]
    unfold Rollup.hasKey
    rfl
  · simp only [if_neg h]

/-- C7: the rollup merge is an additive accumulation: a key with no row
gets a fresh row holding exactly the deltas, a key with a row has the
deltas added to its accumulators, rows of other keys survive untouched,
and merging rev=5, hlp=3 twice for the same fresh key yields accumulators
rev=10 and hlp=6 — the repeated call is not deduplicated. -/
theorem mergeRollup_additive :
    (∀ (rs : List Rollup) (toolId machineId : Nat) (date rev hlp : Int),
        findRollup rs toolId machineId date = none →
        mergeRollup rs toolId machineId date rev hlp =
          rs ++ [⟨toolId, machineId, date, rev, hlp⟩]) ∧
    (∀ (rs : List Rollup) (toolId machineId : Nat) (date rev hlp : Int)
        (r0 : Rollup),
        findRollup rs toolId machineId date = some r0 →
        findRollup (mergeRollup rs toolId machineId date rev hlp)
            toolId machineId date =
          some { r0 with total_ts_revolutions := r0.total_ts_revolutions + rev
                         total_hlp_run := r0.total_hlp_run + hlp }) ∧
    (∀ (rs : List Rollup) (toolId machineId : Nat) (date rev hlp : Int)
        (r' : Rollup), r' ∈ rs → r'.hasKey toolId machineId date = false →
        r' ∈ mergeRollup rs toolId machineId date rev hlp) ∧
    findRollup (mergeRollup (mergeRollup [] 7 2 20240110 5 3) 7 2 20240110 5 3)
        7 2 20240110 = some ⟨7, 2, 20240110, 10, 6⟩ := by
  refine ⟨?_, ?_, ?_, by decide⟩
  · intro rs toolId machineId date rev hlp hnone
    unfold mergeRollup
    rw [if_neg]
    rw [List.any_eq_true]
    rintro ⟨r, hr, hkey⟩
    have := List.find?_eq_none.mp hnone r hr
    exact this hkey
  · intro rs toolId machineId date rev hlp r0 hsome
    unfold findRollup at hsome
    have hp := List.find?_some hsome
    have hany : rs.any (fun r => r.hasKey toolId machineId date) = true := by
      rw [List.any_eq_true]
      exact ⟨r0, List.mem_of_find?_eq_some hsome, hp⟩
    unfold mergeRollup
    rw [if_pos hany]
    unfold findRollup
    rw [List.find?_map]
    have hpred : ((fun r : Rollup => r.hasKey toolId machineId date) ∘
        (fun r : Rollup =>
          if r.hasKey toolId machineId date then
            { r with total_ts_revolutions := r.total_ts_revolutions + rev
                     total_hlp_run := r.total_hlp_run + hlp }
          else r)) = (fun r : Rollup => r.hasKey toolId machineId date) := by
      funext r
      exact hasKey_update r toolId machineId date rev hlp toolId machineId date
    rw [hpred, hsome]
    simp only [Option.map_some']
    rw [if_pos hp]
  · intro rs toolId machineId date rev hlp r' hmem hkey
    unfold mergeRollup
    by_cases hany : rs.any (fun r => r.hasKey toolId machineId date) = true
    · rw [if_pos hany]
      refine List.mem_map.mpr ⟨r', hmem, ?_⟩
      rw [if_neg]
      rw [hkey]
      exact Bool.false_ne_true
    · rw [if_neg hany]
      exact List.mem_append.mpr (Or.inl hmem)

/-- Witness for C7: merging into an empty rollup table inserts a fresh row
holding exactly the deltas. -/
theorem mergeRollup_additive_witness :
    findRollup [] 7 2 20240110 = none ∧
    mergeRollup [] 7 2 20240110 5 3 = [⟨7, 2, 20240110, 5, 3⟩] :=
  ⟨by decide, mergeRollup_additive.1 [] 7 2 20240110 5 3 (by decide)⟩

/-! ## Ledger helpers -/

/-- SQL `MAX(...)` over a list of values: `none` on an empty list. -/
def maxOption : List Int → Option Int
  | [] => none
  | a :: as =>
    match maxOption as with
    | none => some a
    | some m => some (max a m)

/-- The maximum bounds every member. -/
theorem maxOption_le_of_mem :
    ∀ (l : List Int) (a m : Int), a ∈ l → maxOption l = some m → a ≤ m := by
  intro l
  induction l with
  | nil => intro a m ha _; exact absurd ha (List.not_mem_nil a)
  | cons b bs ih =>
    intro a m ha hm
    unfold maxOption at hm
    rcases List.mem_cons.mp ha with hab | habs
    · subst hab
      cases hbs : maxOption bs with
      | none => rw [hbs] at hm; cases hm; exact le_refl _
      | some m0 => rw [hbs] at hm; cases hm; exact le_max_left _ _
    · cases hbs : maxOption bs with
      | none =>
        exfalso
        have : bs = [] := by
          cases bs with
          | nil => rfl
          | cons c cs =>
            unfold maxOption at hbs
            cases h : maxOption cs with
            | none => rw [h] at hbs; exact Option.noConfusion hbs
            | some m1 => rw [h] at hbs; exact Option.noConfusion hbs
        rw [this] at habs
        exact absurd habs (List.not_mem_nil a)
      | some m0 =>
        rw [hbs] at hm
        cases hm
        exact le_trans (ih a m0 habs hbs) (le_max_right _ _)

/-- The maximum of a nonempty list is attained. -/
theorem maxOption_mem :
    ∀ (l : List Int) (m : Int), maxOption l = some m → m ∈ l := by
  intro l
  induction l with
  | nil => intro m hm; exact Option.noConfusion hm
  | cons b bs ih =>
    intro m hm
    unfold maxOption at hm
    cases hbs : maxOption bs with
    | none => rw [hbs] at hm; cases hm; exact List.mem_cons_self _ _
    | some m0 =>
      rw [hbs] at hm
      cases hm
      rcases max_choice b m0 with h | h
      · rw [h]; exact List.mem_cons_self _ _
      · rw [h]; exact List.mem_cons_of_mem _ (ih m0 hbs)

/-- `maxOption` is `none` exactly on the empty list. -/
theorem maxOption_eq_none_iff (l : List Int) : maxOption l = none ↔ l = [] := by
  cases l with
  | nil => simp [maxOption]
  | cons b bs =>
    constructor
    · intro h
      unfold maxOption at h
      cases hbs : maxOption bs with
      | none => rw [hbs] at h; exact Option.noConfusion h
      | some m0 => rw [hbs] at h; exact Option.noConfusion h
    · intro h; exact List.noConfusion h

/-- Appending one value to a list shifts its maximum as expected. -/
theorem maxOption_append_singleton (l : List Int) (a : Int) :
    maxOption (l ++ [a]) =
      some (match maxOption l with | none => a | some m => max m a) := by
  induction l with
  | nil => rfl
  | cons b bs ih =>
    show maxOption (b :: (bs ++ [a])) = _
    unfold maxOption
    rw [ih]
    cases hbs : maxOption bs with
    | none =>
      have : bs = [] := (maxOption_eq_none_iff bs).mp hbs
      subst this
      simp [max_comm]
    | some m =>
      simp only []
      rw [← max_assoc]

/-- Is this a non-deleted ledger event of the given tool? -/
def isLiveEventOf (tid : Nat) (e : MEvent) : Bool :=
  e.tool_id == tid && !e.is_deleted

/-- The `lastMaintenanceQuery` of `updateInventoryTool` (lines 768-779):
`SELECT tool_life_at_event FROM tool_maintenance_history WHERE tool_id = $1
AND is_deleted = FALSE ORDER BY tool_life_at_event DESC LIMIT 1`, with the
prior life defaulting to 0 when no row exists (lines 776-779). -/
def lastLifeAtEvent (ledger : List MEvent) (tid : Nat) : Int :=
  (maxOption ((ledger.filter (isLiveEventOf tid)).map
    (fun e => e.tool_life_at_event))).getD 0

/-- The `sequenceQuery` of `updateInventoryTool` (lines 758-764):
`SELECT COALESCE(MAX(event_sequence), 0) + 1 FROM tool_maintenance_history
WHERE tool_id = $1 AND event_type = $2`. -/
def nextSequence (ledger : List MEvent) (tid : Nat) (ty : String) : Int :=
  (maxOption ((ledger.filter
    (fun e => e.tool_id == tid && e.event_type == ty)).map
    (fun e => e.event_sequence))).getD 0 + 1

/-- Count of the non-deleted ledger events of one type for a tool. -/
def countType (ledger : List MEvent) (tid : Nat) (ty : String) : Nat :=
  (ledger.filter
    (fun e => e.tool_id == tid && e.event_type == ty && !e.is_deleted)).length

/-- Sum of `life_consumed` over the non-deleted ledger events of a tool. -/
def sumLife (ledger : List MEvent) (tid : Nat) : Int :=
  ((ledger.filter (isLiveEventOf tid)).map (fun e => e.life_consumed)).sum

/-! ## updateInventoryTool (inventoryController.js:623-837)

The request body fields are optional; an absent field is `none`.  Numeric
identifiers are kept numeric, so the JS `.trim()` on `material_id` is the
identity here. -/

/-- The body of `PUT /api/inventory/tools/:inventoryId`. -/
structure UpdateBody where
  status : Option String := none
  current_factory_id : Option Int := none
  format : Option String := none
  life_consumed : Option Int := none
  tool_name : Option String := none
  material_id : Option Int := none
  batch_id : Option String := none
  type : Option String := none
  manufacturer : Option String := none
  web_width : Option String := none
deriving Repr, DecidableEq

/-- The `fieldsToUpdate` object of lines 640-722: `none` marks a column
that is not written by the dynamic `UPDATE`. -/
structure FieldsToUpdate where
  status : Option String := none
  number_of_regrinding : Option Int := none
  number_of_resegmentation : Option Int := none
  current_tool_life : Option Int := none
  current_factory_id : Option Int := none
  format : Option (Option String) := none
  tool_name : Option String := none
  material_id : Option Int := none
  batch_id : Option String := none
  type : Option String := none
  manufacturer : Option String := none
  web_width : Option (Option String) := none
deriving Repr, DecidableEq

/-- The `maintenanceEvent` detection of lines 645-674: a maintenance event
fires exactly when the provided status differs from the stored one and is
one of the two sentinel strings, and carries the matching event type. -/
def maintenanceType (t : Tool) (b : UpdateBody) : Option String :=
  match b.status with
  | none => none
  | some s =>
    if s ≠ t.status then
      if s = "sent to madern for regrinding" then some "regrinding"
      else if s = "sent to madern for resegmentation" then some "resegmentation"
      else none
    else none

/-- Lines 645-647: the status column is written when a status is provided
and differs from the stored one. -/
def pendingStatus (t : Tool) (b : UpdateBody) : Option String :=
  match b.status with
  | none => none
  | some s => if s ≠ t.status then some s else none

/-- Lines 649-656: a regrinding sentinel increments
`number_of_regrinding`. -/
def pendingRegrind (t : Tool) (b : UpdateBody) : Option Int :=
  if maintenanceType t b = some "regrinding" then
    some (t.number_of_regrinding + 1)
  else none

/-- Lines 662-669: a resegmentation sentinel increments
`number_of_resegmentation`. -/
def pendingReseg (t : Tool) (b : UpdateBody) : Option Int :=
  if maintenanceType t b = some "resegmentation" then
    some (t.number_of_resegmentation + 1)
  else none

/-- Lines 657-660 and 670-673: inside either sentinel branch, a truthy
`life_consumed` advances the cumulative `current_tool_life`. -/
def pendingLife (t : Tool) (b : UpdateBody) : Option Int :=
  if (maintenanceType t b).isSome ∧ truthyI b.life_consumed then
    some (t.current_tool_life + jsOr b.life_consumed 0)
  else none

/-- Lines 676-679. -/
def pendingFactory (t : Tool) (b : UpdateBody) : Option Int :=
  match b.current_factory_id with
  | none => none
  | some v => if v ≠ t.current_factory_id then some v else none

/-- Lines 681-688: formats are compared after normalisation. -/
def pendingFormat (t : Tool) (b : UpdateBody) : Option (Option String) :=
  match b.format with
  | none => none
  | some s =>
    if normInput (some s) ≠ normStored t.format then some (normInput (some s))
    else none

/-- Lines 690-693. -/
def pendingName (t : Tool) (b : UpdateBody) : Option String :=
  match b.tool_name with
  | none => none
  | some s => if s ≠ t.tool_name then some s.trim else none

/-- Lines 695-698 (numeric, so the JS `.trim()` is the identity here). -/
def pendingMaterial (t : Tool) (b : UpdateBody) : Option Int :=
  match b.material_id with
  | none => none
  | some v => if v ≠ t.material_id then some v else none

/-- Lines 700-703. -/
def pendingBatch (t : Tool) (b : UpdateBody) : Option String :=
  match b.batch_id with
  | none => none
  | some s => if s ≠ t.batch_id then some s.trim else none

/-- Lines 705-708. -/
def pendingType (t : Tool) (b : UpdateBody) : Option String :=
  match b.type with
  | none => none
  | some s => if s ≠ t.type then some s.trim else none

/-- Lines 710-713. -/
def pendingManufacturer (t : Tool) (b : UpdateBody) : Option String :=
  match b.manufacturer with
  | none => none
  | some s => if some s ≠ t.manufacturer then some s.trim else none

/-- Lines 715-722: `web_width` is compared after normalisation. -/
def pendingWebWidth (t : Tool) (b : UpdateBody) : Option (Option String) :=
  match b.web_width with
  | none => none
  | some s =>
    if normInput (some s) ≠ normStored t.web_width then some (normInput (some s))
    else none

/-- The change-detection pass of lines 640-722: each provided field is
compared with the stored value and recorded for update only when it
differs; the blocks of the source write pairwise disjoint fields, so
`fieldsToUpdate` is their record. -/
def computeFields (t : Tool) (b : UpdateBody) : FieldsToUpdate :=
  { status := pendingStatus t b
    number_of_regrinding := pendingRegrind t b
    number_of_resegmentation := pendingReseg t b
    current_tool_life := pendingLife t b
    current_factory_id := pendingFactory t b
    format := pendingFormat t b
    tool_name := pendingName t b
    material_id := pendingMaterial t b
    batch_id := pendingBatch t b
    type := pendingType t b
    manufacturer := pendingManufacturer t b
    web_width := pendingWebWidth t b }

/-- The `hasChanges` flag: set exactly when one of the nine provided-field
comparisons fired. -/
def hasChanges (f : FieldsToUpdate) : Bool :=
  f.status.isSome || f.current_factory_id.isSome || f.format.isSome ||
  f.tool_name.isSome || f.material_id.isSome || f.batch_id.isSome ||
  f.type.isSome || f.manufacturer.isSome || f.web_width.isSome

/-- The dynamic `UPDATE centralized_inventory SET ...` of lines 736-753:
only the recorded columns are written. -/
def applyFields (t : Tool) (f : FieldsToUpdate) : Tool :=
  { t with
    status := f.status.getD t.status
    number_of_regrinding := f.number_of_regrinding.getD t.number_of_regrinding
    number_of_resegmentation :=
      f.number_of_resegmentation.getD t.number_of_resegmentation
    current_tool_life := f.current_tool_life.getD t.current_tool_life
    current_factory_id := f.current_factory_id.getD t.current_factory_id
    format := f.format.getD t.format
    tool_name := f.tool_name.getD t.tool_name
    material_id := f.material_id.getD t.material_id
    batch_id := f.batch_id.getD t.batch_id
    type := f.type.getD t.type
    manufacturer := (f.manufacturer.map some).getD t.manufacturer
    web_width := f.web_width.getD t.web_width }

/-- Outcome of `updateInventoryTool`. -/
inductive UpdateOut where
  | notFound
  | forbidden
  | noChanges
  | updated (tool : Tool) (mEvent : Option MEvent)
deriving Repr, DecidableEq

/-- `updateInventoryTool` (lines 623-837): load the tool, authorize,
detect changes, return early when nothing differs, otherwise write the
changed columns; when the status change is a maintenance sentinel, also
insert the ledger entry with the next `(tool_id, event_type)` sequence,
`tool_life_at_event` equal to the updated cumulative life, and
`life_consumed` equal to the updated life minus the life at the last
non-deleted ledger event (0 when none), all in one transaction. -/
def updateInventoryTool (u : User) (inventoryId : Nat) (b : UpdateBody)
    (now : Int) (db : DB) : DB × UpdateOut :=
  match db.inventory.find? (fun t => t.inventory_id == inventoryId) with
  | none => (db, .notFound)
  | some currentTool =>
    if u.role = "UnitAdmin" ∧ u.factory_id ≠ currentTool.current_factory_id then
      (db, .forbidden)
    else
      let fields := computeFields currentTool b
      if hasChanges fields = false then (db, .noChanges)
      else
        let updatedTool := applyFields currentTool fields
        let inventory' := db.inventory.map
          (fun t => if t.inventory_id == inventoryId then updatedTool else t)
        match maintenanceType currentTool b with
        | none => ({ db with inventory := inventory' }, .updated updatedTool none)
        | some ety =>
          let eventSequence := nextSequence db.ledger updatedTool.tool_id ety
          let previousLifeAtEvent := lastLifeAtEvent db.ledger updatedTool.tool_id
          let calculatedLifeConsumed :=
            updatedTool.current_tool_life - previousLifeAtEvent
          let e : MEvent :=
            { history_id := db.next_history_id
              tool_id := updatedTool.tool_id
              event_type := ety
              tool_life_at_event := updatedTool.current_tool_life
              life_consumed := calculatedLifeConsumed
              hlp_count_at_event := updatedTool.total_hlp
              event_sequence := eventSequence
              timestamp := now
              is_deleted := false }
          ({ db with inventory := inventory'
                     ledger := db.ledger ++ [e]
                     next_history_id := db.next_history_id + 1 },
           .updated updatedTool (some e))

/-! ## deleteMaintenanceHistory (inventoryController.js:990-1070) -/

/-- Outcome of `deleteMaintenanceHistory`. -/
inductive DeleteOut where
  | notFoundRecord
  | notFoundTool
  | ok (statusReverted : Bool) (deleted : MEvent)
deriving Repr, DecidableEq

/-- The `newCount` of lines 1026-1029: the floored decremented counter,
used only for the status-revert decision. -/
def delNewCount (record : MEvent) (currentData : Tool) : Int :=
  if record.event_type = "regrinding" then
    max 0 (currentData.number_of_regrinding - 1)
  else
    max 0 (currentData.number_of_resegmentation - 1)

/-- The `shouldRevertStatus` decision of lines 1030-1038. -/
def delRevert (record : MEvent) (currentData : Tool) : Bool :=
  decide ((record.event_type = "regrinding" ∧
      currentData.status = "sent to madern for regrinding" ∧
      delNewCount record currentData = 0) ∨
    (record.event_type = "resegmentation" ∧
      currentData.status = "sent to madern for resegmentation" ∧
      delNewCount record currentData = 0))

/-- The `UPDATE centralized_inventory SET count = count - 1 [, status]` of
lines 1039-1048, applied to a matching row: the stored decrement is NOT
floored (the floored `newCount` is not what the SQL writes). -/
def delApply (record : MEvent) (currentData : Tool) (t : Tool) : Tool :=
  let t1 :=
    if record.event_type = "regrinding" then
      { t with number_of_regrinding := t.number_of_regrinding - 1 }
    else
      { t with number_of_resegmentation := t.number_of_resegmentation - 1 }
  if delRevert record currentData then { t1 with status := "running" } else t1

/-- `deleteMaintenanceHistory` (lines 990-1070): hard-deletes the ledger
row, then decrements the tool's matching counter (unfloored) and possibly
reverts the status; the two not-found paths roll the transaction back,
leaving the state unchanged. -/
def deleteMaintenanceHistory (historyId : Nat) (db : DB) : DB × DeleteOut :=
  match db.ledger.find? (fun e => e.history_id == historyId) with
  | none => (db, .notFoundRecord)
  | some record =>
    match db.inventory.find? (fun t => t.tool_id == record.tool_id) with
    | none => (db, .notFoundTool)
    | some currentData =>
      let ledger' := db.ledger.filter (fun e => !(e.history_id == historyId))
      let inventory' := db.inventory.map
        (fun t => if t.tool_id == record.tool_id then
          delApply record currentData t else t)
      ({ db with inventory := inventory', ledger := ledger' },
       .ok (delRevert record currentData) record)

/-- The successful branch of `deleteMaintenanceHistory`, in closed form. -/
theorem deleteMaintenanceHistory_eq (historyId : Nat) (db : DB)
    (record : MEvent) (currentData : Tool)
    (h1 : db.ledger.find? (fun e => e.history_id == historyId) = some record)
    (h2 : db.inventory.find? (fun t => t.tool_id == record.tool_id) =
      some currentData) :
    deleteMaintenanceHistory historyId db =
      ({ db with
          inventory := db.inventory.map (fun t =>
            if t.tool_id == record.tool_id then
              delApply record currentData t else t)
          ledger := db.ledger.filter
            (fun e => !(e.history_id == historyId)) },
       .ok (delRevert record currentData) record) := by
  unfold deleteMaintenanceHistory
  simp only [h1, h2]

/-! ## createInventoryTool (inventoryController.js:247-350) -/

/-- JS `s || d` for an optional string request field. -/
def jsOrS (o : Option String) (d : String) : String :=
  match o with
  | none => d
  | some s => if s = "" then d else s

/-- The body of `POST /api/inventory/tools`. -/
structure CreateBody where
  material_id : Option Int := none
  batch_id : Option String := none
  tool_name : Option String := none
  current_factory_id : Option Int := none
  type : Option String := none
  format : Option String := none
  ups_value : Option Int := none
  status : Option String := none
  number_of_regrinding : Option Int := none
  number_of_resegmentation : Option Int := none
deriving Repr, DecidableEq

deriving instance DecidableEq for Except

/-- Outcome of the two tool-registration paths. -/
inductive CreateOut where
  | invalid (msg : String)
  | created (tool : Tool)
deriving Repr, DecidableEq

/-- The validation and factory-resolution block shared verbatim by
`createInventoryTool` (lines 253-282) and each item of
`createHistoricalTools` (lines 378-433): required identity fields,
positive material id, type enum, role-based factory choice, and factory
existence. -/
def validateToolInput (u : User) (db : DB) (material_id : Option Int)
    (batch_id tool_name type : Option String)
    (current_factory_id : Option Int) : Except String Int :=
  if ¬(truthyI material_id && truthyS batch_id && truthyS tool_name &&
      truthyS type) then
    .error "Missing required fields: material_id, batch_id, tool_name, and type are required."
  else if material_id.getD 0 ≤ 0 then
    .error "Material ID must be a positive number."
  else if ¬(type.getD "" = "cutting" ∨ type.getD "" = "creasing" ∨
      type.getD "" = "embossing") then
    .error "Invalid type. Must be one of: cutting, creasing, embossing."
  else if u.role ≠ "BusinessAdmin" then
    if u.factory_id ∈ db.factories then .ok u.factory_id
    else .error "Invalid factory_id. Factory does not exist."
  else if ¬ truthyI current_factory_id then
    .error "BusinessAdmin must specify current_factory_id."
  else if current_factory_id.getD 0 ∈ db.factories then
    .ok (current_factory_id.getD 0)
  else .error "Invalid factory_id. Factory does not exist."

/-- Modelled from the spec: the SQL schema of `centralized_inventory` is
not among the sources, and `createInventoryTool` inserts no life columns,
so they take the column defaults.  The specification defines
`baseline_tool_life` as the life value at creation/import, and plain
creation supplies none, so both life columns (and `total_hlp`) start at 0. -/
def createdToolLife : Int := 0

/-- `createInventoryTool`: validates, then inserts the projection row with
the caller-supplied counters (defaulted to 0) and no ledger entries. -/
def createInventoryTool (u : User) (b : CreateBody) (db : DB) :
    DB × CreateOut :=
  match validateToolInput u db b.material_id b.batch_id b.tool_name b.type
      b.current_factory_id with
  | .error msg => (db, .invalid msg)
  | .ok factoryId =>
    let newTool : Tool :=
      { inventory_id := db.next_inventory_id
        tool_id := db.next_tool_id
        material_id := b.material_id.getD 0
        batch_id := b.batch_id.getD ""
        tool_name := b.tool_name.getD ""
        type := b.type.getD ""
        format := normInput b.format
        status := jsOrS b.status "not in use"
        current_factory_id := factoryId
        manufacturer := none
        web_width := none
        current_tool_life := createdToolLife
        baseline_tool_life := createdToolLife
        number_of_regrinding := jsOr b.number_of_regrinding 0
        number_of_resegmentation := jsOr b.number_of_resegmentation 0
        total_hlp := createdToolLife }
    ({ db with inventory := db.inventory ++ [newTool]
               next_inventory_id := db.next_inventory_id + 1
               next_tool_id := db.next_tool_id + 1 },
     .created newTool)

/-! ## createHistoricalTools (inventoryController.js:352-621) -/

/-- One element of `lifecycle_events` in the historical-import body. -/
structure LifecycleEventIn where
  event_type : String
  life_value : Option Int := none
  date : Option Int := none
  sequence : Option Int := none
deriving Repr, DecidableEq

/-- One tool of the historical-import body. -/
structure ToolImportIn where
  material_id : Option Int := none
  batch_id : Option String := none
  tool_name : Option String := none
  current_factory_id : Option Int := none
  type : Option String := none
  format : Option String := none
  ups_value : Option Int := none
  status : Option String := none
  current_tool_life : Option Int := none
  lifecycle_events : Option (List LifecycleEventIn) := none
deriving Repr, DecidableEq

/-- Lines 443-449: `number_of_regrinding` pre-computed as the count of
supplied events of type "regrinding". -/
def regrindCountOf (i : ToolImportIn) : Nat :=
  match i.lifecycle_events with
  | none => 0
  | some evs => (evs.filter (fun e => e.event_type == "regrinding")).length

/-- Lines 443-449: `number_of_resegmentation` pre-computed as the count of
supplied events of type "resegmentation". -/
def resegCountOf (i : ToolImportIn) : Nat :=
  match i.lifecycle_events with
  | none => 0
  | some evs =>
    (evs.filter (fun e => e.event_type == "resegmentation")).length

/-- Accumulator of the lifecycle replay loop: ledger entries written so
far, the rollup table, the next history id, the running previous life
value (`previousLifeValue`, starting at 0), and `eventsInserted`. -/
structure ReplayState where
  events : List MEvent
  rollups : List Rollup
  nextHist : Nat
  prev : Int
  inserted : Nat
deriving Repr, DecidableEq

/-- The ledger row written by one non-"initial" iteration of the replay
loop (lines 522-542): `tool_life_at_event = life_value` and
`life_consumed` the delta from the previously processed event. -/
def replayEventOf (toolId : Nat) (now : Int) (st : ReplayState)
    (ev : LifecycleEventIn) : MEvent :=
  { history_id := st.nextHist
    tool_id := toolId
    event_type := ev.event_type
    tool_life_at_event := ev.life_value.getD 0
    life_consumed := ev.life_value.getD 0 - st.prev
    hlp_count_at_event := 0
    event_sequence := jsOr ev.sequence 1
    timestamp := jsOr ev.date now
    is_deleted := false }

/-- One iteration of the lifecycle replay loop (lines 511-574): the
"initial" pseudo-event is skipped; every other event inserts its ledger
entry and feeds the same life delta into the daily rollup keyed by
placeholder machine 1 and the event date. -/
def replayStep (toolId : Nat) (now : Int) (st : ReplayState)
    (ev : LifecycleEventIn) : ReplayState :=
  if ev.event_type = "initial" then st
  else
    { events := st.events ++ [replayEventOf toolId now st ev]
      rollups := mergeRollup st.rollups toolId 1 (jsOr ev.date now)
        (ev.life_value.getD 0 - st.prev) 0
      nextHist := st.nextHist + 1
      prev := ev.life_value.getD 0
      inserted := st.inserted + 1 }

/-- Per-item outcome of the import batch. -/
inductive ImportItemOut where
  | ok (tool_id : Nat) (events_imported : Nat)
  | err (msg : String)
deriving Repr, DecidableEq

/-- Processing of a single tool of the import batch (lines 372-599):
validation failures record an error and leave the state untouched; a
valid tool is inserted with `current_tool_life = baseline_tool_life =`
the caller-provided `current_tool_life` (0 when absent/falsy, line 451)
and counters pre-computed from the supplied events, and its non-"initial"
lifecycle events are replayed into the ledger and the daily rollups
inside the item's own transaction. -/
def processImportItem (u : User) (now : Int) (db : DB) (i : ToolImportIn) :
    DB × ImportItemOut :=
  match validateToolInput u db i.material_id i.batch_id i.tool_name i.type
      i.current_factory_id with
  | .error msg => (db, .err msg)
  | .ok factoryId =>
    let toolLife := jsOr i.current_tool_life 0
    let newTool : Tool :=
      { inventory_id := db.next_inventory_id
        tool_id := db.next_tool_id
        material_id := i.material_id.getD 0
        batch_id := i.batch_id.getD ""
        tool_name := i.tool_name.getD ""
        type := i.type.getD ""
        format := normInput i.format
        status := jsOrS i.status "not in use"
        current_factory_id := factoryId
        manufacturer := none
        web_width := none
        current_tool_life := toolLife
        baseline_tool_life := toolLife
        number_of_regrinding := (regrindCountOf i : Int)
        number_of_resegmentation := (resegCountOf i : Int)
        total_hlp := 0 }
    let st0 : ReplayState := ⟨[], db.rollups, db.next_history_id, 0, 0⟩
    let st := (i.lifecycle_events.getD []).foldl
      (replayStep db.next_tool_id now) st0
    ({ db with inventory := db.inventory ++ [newTool]
               ledger := db.ledger ++ st.events
               rollups := st.rollups
               next_inventory_id := db.next_inventory_id + 1
               next_tool_id := db.next_tool_id + 1
               next_history_id := st.nextHist },
     .ok db.next_tool_id st.inserted)

/-- The success/error breakdown of the batch response: successes as
`(tool_id, events_imported)` pairs, errors as messages. -/
structure ImportResults where
  success : List (Nat × Nat)
  errors : List String
deriving Repr, DecidableEq

/-- One turn of the batch loop (lines 372-600): exactly one of the two
result lists receives the item. -/
def importLoop (u : User) (now : Int) (acc : DB × ImportResults)
    (i : ToolImportIn) : DB × ImportResults :=
  match processImportItem u now acc.1 i with
  | (db1, .ok tid n) =>
    (db1, { acc.2 with success := acc.2.success ++ [(tid, n)] })
  | (db1, .err m) =>
    (db1, { acc.2 with errors := acc.2.errors ++ [m] })

/-- `createHistoricalTools`: each tool of the batch is validated and
processed independently, in its own transaction. -/
def createHistoricalTools (u : User) (tools : List ToolImportIn) (now : Int)
    (db : DB) : DB × ImportResults :=
  tools.foldl (importLoop u now) (db, ⟨[], []⟩)

/-! ## The operation machine -/

/-- The mutating operations of the lifecycle core. -/
inductive Op where
  | create (u : User) (b : CreateBody)
  | importTools (u : User) (tools : List ToolImportIn) (now : Int)
  | update (u : User) (inventoryId : Nat) (b : UpdateBody) (now : Int)
  | reverse (historyId : Nat)

/-- One operation applied to the state (responses discarded). -/
def stepOp (db : DB) : Op → DB
  | .create u b => (createInventoryTool u b db).1
  | .importTools u ts now => (createHistoricalTools u ts now db).1
  | .update u iid b now => (updateInventoryTool u iid b now db).1
  | .reverse h => (deleteMaintenanceHistory h db).1

/-- A whole operation sequence applied to the state. -/
def runOps (db : DB) (ops : List Op) : DB := ops.foldl stepOp db

/-! ## Characterisation of `updateInventoryTool` -/

/-- The ledger entry inserted by the maintenance branch of
`updateInventoryTool` (lines 756-796). -/
def newMaintEvent (db : DB) (t : Tool) (b : UpdateBody) (ety : String)
    (now : Int) : MEvent :=
  let t' := applyFields t (computeFields t b)
  { history_id := db.next_history_id
    tool_id := t'.tool_id
    event_type := ety
    tool_life_at_event := t'.current_tool_life
    life_consumed := t'.current_tool_life - lastLifeAtEvent db.ledger t'.tool_id
    hlp_count_at_event := t'.total_hlp
    event_sequence := nextSequence db.ledger t'.tool_id ety
    timestamp := now
    is_deleted := false }

/-- A maintenance event fires only on the two sentinel statuses, provided
they differ from the stored status. -/
theorem maintenanceType_spec (t : Tool) (b : UpdateBody) (ety : String) :
    maintenanceType t b = some ety →
    (ety = "regrinding" ∧ b.status = some "sent to madern for regrinding" ∧
      t.status ≠ "sent to madern for regrinding") ∨
    (ety = "resegmentation" ∧
      b.status = some "sent to madern for resegmentation" ∧
      t.status ≠ "sent to madern for resegmentation") := by
  intro h
  cases hs : b.status with
  | none =>
    simp only [maintenanceType, hs] at h
    exact Option.noConfusion h
  | some s =>
    simp only [maintenanceType, hs] at h
    by_cases hne : s ≠ t.status
    · rw [if_pos hne] at h
      by_cases hreg : s = "sent to madern for regrinding"
      · rw [if_pos hreg] at h
        cases h
        left
        subst hreg
        exact ⟨rfl, rfl, fun hh => hne hh.symm⟩
      · rw [if_neg hreg] at h
        by_cases hres : s = "sent to madern for resegmentation"
        · rw [if_pos hres] at h
          cases h
          right
          subst hres
          exact ⟨rfl, rfl, fun hh => hne hh.symm⟩
        · rw [if_neg hres] at h; exact Option.noConfusion h
    · rw [if_neg hne] at h; exact Option.noConfusion h

/-- A maintenance event forces a pending status write. -/
theorem pendingStatus_of_maint (t : Tool) (b : UpdateBody) (ety : String)
    (h : maintenanceType t b = some ety) : (pendingStatus t b).isSome = true := by
  rcases maintenanceType_spec t b ety h with ⟨_, hs, hne⟩ | ⟨_, hs, hne⟩ <;>
    · simp only [pendingStatus, hs]
      rw [if_pos (fun hh => hne hh.symm)]
      rfl

/-- A maintenance event sets `hasChanges`. -/
theorem hasChanges_of_maint (t : Tool) (b : UpdateBody) (ety : String)
    (h : maintenanceType t b = some ety) :
    hasChanges (computeFields t b) = true := by
  unfold hasChanges computeFields
  simp only [pendingStatus_of_maint t b ety h, Bool.true_or]

/-- The maintenance branch of `updateInventoryTool`, in closed form. -/
theorem updateInventoryTool_maint_eq (u : User) (iid : Nat) (b : UpdateBody)
    (now : Int) (db : DB) (t : Tool) (ety : String)
    (hfind : db.inventory.find? (fun x => x.inventory_id == iid) = some t)
    (hauth : ¬(u.role = "UnitAdmin" ∧ u.factory_id ≠ t.current_factory_id))
    (hmt : maintenanceType t b = some ety) :
    updateInventoryTool u iid b now db =
      ({ db with
          inventory := db.inventory.map (fun x =>
            if x.inventory_id == iid then applyFields t (computeFields t b)
            else x)
          ledger := db.ledger ++ [newMaintEvent db t b ety now]
          next_history_id := db.next_history_id + 1 },
       .updated (applyFields t (computeFields t b))
         (some (newMaintEvent db t b ety now))) := by
  unfold updateInventoryTool
  rw [hfind]
  simp only [if_neg hauth, hasChanges_of_maint t b ety hmt, hmt]
  rfl

/-- The plain-update branch of `updateInventoryTool`, in closed form. -/
theorem updateInventoryTool_plain_eq (u : User) (iid : Nat) (b : UpdateBody)
    (now : Int) (db : DB) (t : Tool)
    (hfind : db.inventory.find? (fun x => x.inventory_id == iid) = some t)
    (hauth : ¬(u.role = "UnitAdmin" ∧ u.factory_id ≠ t.current_factory_id))
    (hmt : maintenanceType t b = none)
    (hchg : hasChanges (computeFields t b) = true) :
    updateInventoryTool u iid b now db =
      ({ db with
          inventory := db.inventory.map (fun x =>
            if x.inventory_id == iid then applyFields t (computeFields t b)
            else x) },
       .updated (applyFields t (computeFields t b)) none) := by
  unfold updateInventoryTool
  rw [hfind]
  simp only [if_neg hauth, hchg, hmt]
  rfl

/-- The early no-changes return of `updateInventoryTool`, in closed form. -/
theorem updateInventoryTool_nochange_eq (u : User) (iid : Nat)
    (b : UpdateBody) (now : Int) (db : DB) (t : Tool)
    (hfind : db.inventory.find? (fun x => x.inventory_id == iid) = some t)
    (hauth : ¬(u.role = "UnitAdmin" ∧ u.factory_id ≠ t.current_factory_id))
    (hchg : hasChanges (computeFields t b) = false) :
    updateInventoryTool u iid b now db = (db, .noChanges) := by
  unfold updateInventoryTool
  rw [hfind]
  simp only [if_neg hauth, hchg]
  rfl

/-! ## Sequence and last-life lemmas -/

/-- Every matching ledger event sits strictly below the next sequence. -/
theorem lt_nextSequence (ledger : List MEvent) (tid : Nat) (ty : String)
    (x : MEvent) (hx : x ∈ ledger) (ht : x.tool_id = tid)
    (hty : x.event_type = ty) :
    x.event_sequence < nextSequence ledger tid ty := by
  unfold nextSequence
  have hxf : x ∈ ledger.filter
      (fun e => e.tool_id == tid && e.event_type == ty) := by
    rw [List.mem_filter]
    refine ⟨hx, ?_⟩
    rw [ht, hty]
    simp
  have hmem : x.event_sequence ∈ (ledger.filter
      (fun e => e.tool_id == tid && e.event_type == ty)).map
      (fun e => e.event_sequence) :=
    List.mem_map_of_mem _ hxf
  cases hmax : maxOption ((ledger.filter
      (fun e => e.tool_id == tid && e.event_type == ty)).map
      (fun e => e.event_sequence)) with
  | none =>
    exfalso
    rw [(maxOption_eq_none_iff _).mp hmax] at hmem
    exact absurd hmem (List.not_mem_nil _)
  | some m =>
    have := maxOption_le_of_mem _ _ _ hmem hmax
    simp only [Option.getD_some]
    omega

/-- With no matching event, the next sequence is 1. -/
theorem nextSequence_of_empty (ledger : List MEvent) (tid : Nat) (ty : String)
    (h : ∀ x ∈ ledger, ¬(x.tool_id = tid ∧ x.event_type = ty)) :
    nextSequence ledger tid ty = 1 := by
  unfold nextSequence
  have hnil : ledger.filter (fun e => e.tool_id == tid && e.event_type == ty) = [] := by
    rw [List.filter_eq_nil_iff]
    intro x hx
    simp only [Bool.and_eq_true, beq_iff_eq]
    exact fun hc => h x hx hc
  rw [hnil]
  rfl

/-- With at least one matching event, the next sequence is the maximal
matching sequence plus one. -/
theorem nextSequence_succ (ledger : List MEvent) (tid : Nat) (ty : String)
    (x0 : MEvent) (hx0 : x0 ∈ ledger) (ht0 : x0.tool_id = tid)
    (hty0 : x0.event_type = ty) :
    ∃ x ∈ ledger, x.tool_id = tid ∧ x.event_type = ty ∧
      nextSequence ledger tid ty = x.event_sequence + 1 := by
  have hxf : x0 ∈ ledger.filter
      (fun e => e.tool_id == tid && e.event_type == ty) := by
    rw [List.mem_filter]
    refine ⟨hx0, ?_⟩
    rw [ht0, hty0]
    simp
  have hmem : x0.event_sequence ∈ (ledger.filter
      (fun e => e.tool_id == tid && e.event_type == ty)).map
      (fun e => e.event_sequence) :=
    List.mem_map_of_mem _ hxf
  cases hmax : maxOption ((ledger.filter
      (fun e => e.tool_id == tid && e.event_type == ty)).map
      (fun e => e.event_sequence)) with
  | none =>
    exfalso
    rw [(maxOption_eq_none_iff _).mp hmax] at hmem
    exact absurd hmem (List.not_mem_nil _)
  | some m =>
    have hm := maxOption_mem _ _ hmax
    rcases List.mem_map.mp hm with ⟨x, hxfil, hxs⟩
    rcases List.mem_filter.mp hxfil with ⟨hxl, hxp⟩
    simp only [Bool.and_eq_true, beq_iff_eq] at hxp
    refine ⟨x, hxl, hxp.1, hxp.2, ?_⟩
    unfold nextSequence
    rw [hmax]
    simp only [Option.getD_some]
    rw [hxs]

/-- With no live event of the tool, the prior life defaults to 0. -/
theorem lastLife_of_empty (ledger : List MEvent) (tid : Nat)
    (h : ∀ x ∈ ledger, ¬(x.tool_id = tid ∧ x.is_deleted = false)) :
    lastLifeAtEvent ledger tid = 0 := by
  unfold lastLifeAtEvent
  have hnil : ledger.filter (isLiveEventOf tid) = [] := by
    rw [List.filter_eq_nil_iff]
    intro x hx
    unfold isLiveEventOf
    simp only [Bool.and_eq_true, beq_iff_eq, Bool.not_eq_eq_eq_not, Bool.not_true]
    exact fun hc => h x hx hc
  rw [hnil]
  rfl

/-- The prior life equals the life at any live event whose
`tool_life_at_event` dominates the tool's live ledger. -/
theorem lastLife_eq_top (ledger : List MEvent) (tid : Nat) (x' : MEvent)
    (hx : x' ∈ ledger) (ht : x'.tool_id = tid) (hlive : x'.is_deleted = false)
    (htop : ∀ y ∈ ledger, y.tool_id = tid → y.is_deleted = false →
      y.tool_life_at_event ≤ x'.tool_life_at_event) :
    lastLifeAtEvent ledger tid = x'.tool_life_at_event := by
  unfold lastLifeAtEvent
  have hxf : x' ∈ ledger.filter (isLiveEventOf tid) := by
    rw [List.mem_filter]
    refine ⟨hx, ?_⟩
    unfold isLiveEventOf
    rw [ht, hlive]
    simp
  have hmem : x'.tool_life_at_event ∈ (ledger.filter (isLiveEventOf tid)).map
      (fun e => e.tool_life_at_event) :=
    List.mem_map_of_mem _ hxf
  cases hmax : maxOption ((ledger.filter (isLiveEventOf tid)).map
      (fun e => e.tool_life_at_event)) with
  | none =>
    exfalso
    rw [(maxOption_eq_none_iff _).mp hmax] at hmem
    exact absurd hmem (List.not_mem_nil _)
  | some m =>
    have hle := maxOption_le_of_mem _ _ _ hmem hmax
    have hm := maxOption_mem _ _ hmax
    rcases List.mem_map.mp hm with ⟨y, hyfil, hys⟩
    rcases List.mem_filter.mp hyfil with ⟨hyl, hyp⟩
    unfold isLiveEventOf at hyp
    simp only [Bool.and_eq_true, beq_iff_eq, Bool.not_eq_eq_eq_not,
      Bool.not_true] at hyp
    have hge : m ≤ x'.tool_life_at_event := by
      rw [← hys]
      exact htop y hyl hyp.1 hyp.2
    simp only [Option.getD_some]
    exact le_antisymm hge hle

/-! ## C2: effects of applying a maintenance event -/

/-- A regrinding sentinel increments exactly the regrinding counter. -/
theorem applyFields_maint_regrind (t : Tool) (b : UpdateBody)
    (h : maintenanceType t b = some "regrinding") :
    (applyFields t (computeFields t b)).number_of_regrinding =
      t.number_of_regrinding + 1 ∧
    (applyFields t (computeFields t b)).number_of_resegmentation =
      t.number_of_resegmentation := by
  constructor <;>
    simp [applyFields, computeFields, pendingRegrind, pendingReseg, h]

/-- A resegmentation sentinel increments exactly the resegmentation
counter. -/
theorem applyFields_maint_reseg (t : Tool) (b : UpdateBody)
    (h : maintenanceType t b = some "resegmentation") :
    (applyFields t (computeFields t b)).number_of_resegmentation =
      t.number_of_resegmentation + 1 ∧
    (applyFields t (computeFields t b)).number_of_regrinding =
      t.number_of_regrinding := by
  constructor <;>
    simp [applyFields, computeFields, pendingRegrind, pendingReseg, h]

/-- Under a maintenance event, the cumulative life advances by the
provided consumed amount (0 when absent or zero). -/
theorem applyFields_maint_life (t : Tool) (b : UpdateBody) (ety : String)
    (h : maintenanceType t b = some ety) :
    (applyFields t (computeFields t b)).current_tool_life =
      t.current_tool_life + jsOr b.life_consumed 0 := by
  by_cases htr : truthyI b.life_consumed = true
  · simp [applyFields, computeFields, pendingLife, h, htr]
  · have hz : jsOr b.life_consumed 0 = 0 := by
      cases hc : b.life_consumed with
      | none => rfl
      | some v =>
        rw [hc] at htr
        simp only [truthyI, bne_iff_ne, ne_eq, Decidable.not_not] at htr
        simp [jsOr, htr]
    simp [applyFields, computeFields, pendingLife, h, htr, hz]

/-- C2: applying a maintenance event (a status change to a maintenance
sentinel) increments the matching counter by one, advances
`current_tool_life` by the consumed amount (the provided `life_consumed`,
0 when absent), appends one ledger entry whose `event_sequence` is the
next one scoped to the `(tool_id, event_type)` pair (1 when none exists,
the maximal one plus 1 otherwise), whose `tool_life_at_event` is the
updated cumulative life, and whose `life_consumed` is the delta between
the updated cumulative life and the life recorded at the most recent
non-deleted ledger event of the tool — the event dominating both the
timestamps and (by the ledger monotonicity invariant) the recorded lives
of the tool's live entries — defaulting the prior life to 0 when no live
entry exists. -/
theorem applyMaintenance_effects (u : User) (iid : Nat) (b : UpdateBody)
    (now : Int) (db : DB) (t : Tool) (ety : String)
    (hfind : db.inventory.find? (fun x => x.inventory_id == iid) = some t)
    (hauth : ¬(u.role = "UnitAdmin" ∧ u.factory_id ≠ t.current_factory_id))
    (hmt : maintenanceType t b = some ety) :
    ∃ t' e,
      (updateInventoryTool u iid b now db).2 = .updated t' (some e) ∧
      (updateInventoryTool u iid b now db).1.ledger = db.ledger ++ [e] ∧
      (ety = "regrinding" →
        t'.number_of_regrinding = t.number_of_regrinding + 1 ∧
        t'.number_of_resegmentation = t.number_of_resegmentation) ∧
      (ety = "resegmentation" →
        t'.number_of_resegmentation = t.number_of_resegmentation + 1 ∧
        t'.number_of_regrinding = t.number_of_regrinding) ∧
      t'.current_tool_life = t.current_tool_life + jsOr b.life_consumed 0 ∧
      e.tool_id = t.tool_id ∧
      e.event_type = ety ∧
      e.tool_life_at_event = t'.current_tool_life ∧
      (∀ x ∈ db.ledger, x.tool_id = t.tool_id → x.event_type = ety →
        x.event_sequence < e.event_sequence) ∧
      ((∀ x ∈ db.ledger, ¬(x.tool_id = t.tool_id ∧ x.event_type = ety)) →
        e.event_sequence = 1) ∧
      (∀ x0 ∈ db.ledger, x0.tool_id = t.tool_id → x0.event_type = ety →
        ∃ x ∈ db.ledger, x.tool_id = t.tool_id ∧ x.event_type = ety ∧
          e.event_sequence = x.event_sequence + 1) ∧
      ((∀ x ∈ db.ledger, ¬(x.tool_id = t.tool_id ∧ x.is_deleted = false)) →
        e.life_consumed = t'.current_tool_life - 0) ∧
      (∀ x' ∈ db.ledger, x'.tool_id = t.tool_id → x'.is_deleted = false →
        (∀ y ∈ db.ledger, y.tool_id = t.tool_id → y.is_deleted = false →
          y.timestamp ≤ x'.timestamp) →
        (∀ y ∈ db.ledger, y.tool_id = t.tool_id → y.is_deleted = false →
          y.tool_life_at_event ≤ x'.tool_life_at_event) →
        e.life_consumed = t'.current_tool_life - x'.tool_life_at_event) := by
  have heq := updateInventoryTool_maint_eq u iid b now db t ety hfind hauth hmt
  have htid : (applyFields t (computeFields t b)).tool_id = t.tool_id := rfl
  refine ⟨applyFields t (computeFields t b), newMaintEvent db t b ety now,
    ?_, ?_, ?_, ?_, ?_, ?_, ?_, ?_, ?_, ?_, ?_, ?_, ?_⟩
  · rw [heq]
  · rw [heq]
  · intro hr; subst hr; exact applyFields_maint_regrind t b hmt
  · intro hr; subst hr; exact applyFields_maint_reseg t b hmt
  · exact applyFields_maint_life t b ety hmt
  · simp only [newMaintEvent]
    exact htid
  · simp only [newMaintEvent]
  · simp only [newMaintEvent]
  · intro x hx hxt hxty
    simp only [newMaintEvent, htid]
    exact lt_nextSequence db.ledger t.tool_id ety x hx hxt hxty
  · intro hnone
    simp only [newMaintEvent, htid]
    exact nextSequence_of_empty db.ledger t.tool_id ety hnone
  · intro x0 hx0 ht0 hty0
    simp only [newMaintEvent, htid]
    exact nextSequence_succ db.ledger t.tool_id ety x0 hx0 ht0 hty0
  · intro hnone
    simp only [newMaintEvent, htid]
    rw [lastLife_of_empty db.ledger t.tool_id hnone]
  · intro x' hx' ht' hlive' _ htop
    simp only [newMaintEvent, htid]
    rw [lastLife_eq_top db.ledger t.tool_id x' hx' ht' hlive' htop]

/-- A concrete business admin. -/
def uW : User := { role := "BusinessAdmin", factory_id := 1 }

/-- A concrete tool: two prior regrindings, cumulative life 120. -/
def t0W : Tool :=
  { inventory_id := 1, tool_id := 1, material_id := 5, batch_id := "B"
    tool_name := "T", type := "cutting", format := none, status := "running"
    current_factory_id := 1, manufacturer := none, web_width := none
    current_tool_life := 120, baseline_tool_life := 0
    number_of_regrinding := 2, number_of_resegmentation := 0, total_hlp := 7 }

/-- A concrete prior ledger event of the tool (life 120, sequence 2). -/
def e0W : MEvent :=
  { history_id := 1, tool_id := 1, event_type := "regrinding"
    tool_life_at_event := 120, life_consumed := 120, hlp_count_at_event := 0
    event_sequence := 2, timestamp := 10, is_deleted := false }

/-- The concrete database: one tool, one prior event. -/
def dbW : DB :=
  { inventory := [t0W], ledger := [e0W], rollups := [], factories := [1]
    next_inventory_id := 2, next_tool_id := 2, next_history_id := 2 }

/-- A concrete maintenance request: regrinding sentinel, consumed 30. -/
def bW : UpdateBody :=
  { status := some "sent to madern for regrinding", life_consumed := some 30 }

/-! ## List utilities shared by the frame and reversal proofs -/

/-- In a list whose keys are pairwise distinct, equal keys force equal
elements. -/
theorem eq_of_pairwise_key {α β : Type} (key : α → β) :
    ∀ l : List α, l.Pairwise (fun a b => key a ≠ key b) →
      ∀ a ∈ l, ∀ b ∈ l, key a = key b → a = b := by
  intro l hp
  induction l with
  | nil => intro a ha; exact absurd ha (List.not_mem_nil a)
  | cons c cs ih =>
    rcases List.pairwise_cons.mp hp with ⟨hc, hcs⟩
    intro a ha b hb hk
    rcases List.mem_cons.mp ha with rfl | has
    · rcases List.mem_cons.mp hb with rfl | hbs
      · rfl
      · exact absurd hk (hc b hbs)
    · rcases List.mem_cons.mp hb with rfl | hbs
      · exact absurd hk.symm (hc a has)
      · exact ih hcs a has b hbs hk

/-- `find?` only inspects the predicate on the list's members. -/
theorem find?_congr_mem {α : Type} (p q : α → Bool) :
    ∀ l : List α, (∀ x ∈ l, p x = q x) → l.find? p = l.find? q := by
  intro l
  induction l with
  | nil => intro _; rfl
  | cons a as ih =>
    intro h
    have ha := h a (List.mem_cons_self a as)
    by_cases hpa : p a = true
    · rw [List.find?_cons_of_pos _ hpa, List.find?_cons_of_pos _ (ha ▸ hpa)]
    · have hqa : ¬q a = true := fun hq => hpa (ha ▸ hq)
      rw [List.find?_cons_of_neg _ (by simpa using hpa),
        List.find?_cons_of_neg _ (by simpa using hqa)]
      exact ih fun x hx => h x (List.mem_cons_of_mem a hx)

/-- A failing prefix can be dropped from a `find?`. -/
theorem find?_append_left_none {α : Type} (p : α → Bool) :
    ∀ (l1 l2 : List α), (∀ x ∈ l1, p x = false) →
      (l1 ++ l2).find? p = l2.find? p := by
  intro l1
  induction l1 with
  | nil => intro l2 _; rfl
  | cons a as ih =>
    intro l2 h
    have ha : ¬p a = true := by
      rw [h a (List.mem_cons_self a as)]
      exact Bool.false_ne_true
    rw [List.cons_append, List.find?_cons_of_neg _ ha]
    exact ih l2 fun x hx => h x (List.mem_cons_of_mem a hx)

/-- A pair drawn from `zip l l` has equal components. -/
theorem zip_self_eq {α : Type} :
    ∀ (l : List α) (p : α × α), p ∈ l.zip l → p.1 = p.2 := by
  intro l
  induction l with
  | nil => intro p hp; exact absurd hp (List.not_mem_nil p)
  | cons a as ih =>
    intro p hp
    rcases List.mem_cons.mp hp with rfl | h
    · rfl
    · exact ih p h

/-- A pair drawn from `zip (map f l) l` is `(f x, x)` componentwise. -/
theorem zip_map_self {α : Type} (f : α → α) :
    ∀ (l : List α) (p : α × α), p ∈ (l.map f).zip l →
      p.1 = f p.2 ∧ p.2 ∈ l := by
  intro l
  induction l with
  | nil => intro p hp; exact absurd hp (List.not_mem_nil p)
  | cons a as ih =>
    intro p hp
    rcases List.mem_cons.mp hp with rfl | h
    · exact ⟨rfl, List.mem_cons_self a as⟩
    · rcases ih p h with ⟨h1, h2⟩
      exact ⟨h1, List.mem_cons_of_mem a h2⟩

/-! ## C10: frame of a non-sentinel update -/

/-- A status that never hits a sentinel produces no maintenance event. -/
theorem maintenanceType_none_of_nonsentinel (t : Tool) (b : UpdateBody)
    (h : ∀ s, b.status = some s → s ≠ "sent to madern for regrinding" ∧
      s ≠ "sent to madern for resegmentation") :
    maintenanceType t b = none := by
  cases hs : b.status with
  | none => simp [maintenanceType, hs]
  | some s =>
    simp only [maintenanceType, hs]
    by_cases hne : s ≠ t.status
    · rw [if_pos hne, if_neg (h s hs).1, if_neg (h s hs).2]
    · rw [if_neg hne]

/-- Without a maintenance event, an update leaves the counters, the
cumulative life and the baseline untouched, leaves every absent field
untouched, and leaves every provided-but-equal field untouched. -/
theorem applyFields_nonmaint_frame (t : Tool) (b : UpdateBody)
    (hmt : maintenanceType t b = none) :
    (applyFields t (computeFields t b)).number_of_regrinding =
      t.number_of_regrinding ∧
    (applyFields t (computeFields t b)).number_of_resegmentation =
      t.number_of_resegmentation ∧
    (applyFields t (computeFields t b)).current_tool_life =
      t.current_tool_life ∧
    (applyFields t (computeFields t b)).baseline_tool_life =
      t.baseline_tool_life ∧
    (b.status = none →
      (applyFields t (computeFields t b)).status = t.status) ∧
    (b.current_factory_id = none →
      (applyFields t (computeFields t b)).current_factory_id =
        t.current_factory_id) ∧
    (b.format = none →
      (applyFields t (computeFields t b)).format = t.format) ∧
    (b.tool_name = none →
      (applyFields t (computeFields t b)).tool_name = t.tool_name) ∧
    (b.material_id = none →
      (applyFields t (computeFields t b)).material_id = t.material_id) ∧
    (b.batch_id = none →
      (applyFields t (computeFields t b)).batch_id = t.batch_id) ∧
    (b.type = none →
      (applyFields t (computeFields t b)).type = t.type) ∧
    (b.manufacturer = none →
      (applyFields t (computeFields t b)).manufacturer = t.manufacturer) ∧
    (b.web_width = none →
      (applyFields t (computeFields t b)).web_width = t.web_width) ∧
    (∀ s, b.status = some s → s = t.status →
      (applyFields t (computeFields t b)).status = t.status) ∧
    (∀ v, b.current_factory_id = some v → v = t.current_factory_id →
      (applyFields t (computeFields t b)).current_factory_id =
        t.current_factory_id) ∧
    (∀ s, b.tool_name = some s → s = t.tool_name →
      (applyFields t (computeFields t b)).tool_name = t.tool_name) ∧
    (∀ v, b.material_id = some v → v = t.material_id →
      (applyFields t (computeFields t b)).material_id = t.material_id) ∧
    (∀ s, b.batch_id = some s → s = t.batch_id →
      (applyFields t (computeFields t b)).batch_id = t.batch_id) ∧
    (∀ s, b.type = some s → s = t.type →
      (applyFields t (computeFields t b)).type = t.type) ∧
    (∀ s, b.manufacturer = some s → some s = t.manufacturer →
      (applyFields t (computeFields t b)).manufacturer = t.manufacturer) ∧
    (∀ s, b.format = some s → normInput (some s) = normStored t.format →
      (applyFields t (computeFields t b)).format = t.format) ∧
    (∀ s, b.web_width = some s →
      normInput (some s) = normStored t.web_width →
      (applyFields t (computeFields t b)).web_width = t.web_width) := by
  refine ⟨?_, ?_, ?_, ?_, ?_, ?_, ?_, ?_, ?_, ?_, ?_, ?_, ?_, ?_, ?_, ?_,
    ?_, ?_, ?_, ?_, ?_, ?_⟩
  · simp [applyFields, computeFields, pendingRegrind, hmt]
  · simp [applyFields, computeFields, pendingReseg, hmt]
  · simp [applyFields, computeFields, pendingLife, hmt]
  · simp [applyFields]
  · intro hb; simp [applyFields, computeFields, pendingStatus, hb]
  · intro hb; simp [applyFields, computeFields, pendingFactory, hb]
  · intro hb; simp [applyFields, computeFields, pendingFormat, hb]
  · intro hb; simp [applyFields, computeFields, pendingName, hb]
  · intro hb; simp [applyFields, computeFields, pendingMaterial, hb]
  · intro hb; simp [applyFields, computeFields, pendingBatch, hb]
  · intro hb; simp [applyFields, computeFields, pendingType, hb]
  · intro hb; simp [applyFields, computeFields, pendingManufacturer, hb]
  · intro hb; simp [applyFields, computeFields, pendingWebWidth, hb]
  · intro s hb he; simp [applyFields, computeFields, pendingStatus, hb, he]
  · intro v hb he; simp [applyFields, computeFields, pendingFactory, hb, he]
  · intro s hb he; simp [applyFields, computeFields, pendingName, hb, he]
  · intro v hb he; simp [applyFields, computeFields, pendingMaterial, hb, he]
  · intro s hb he; simp [applyFields, computeFields, pendingBatch, hb, he]
  · intro s hb he; simp [applyFields, computeFields, pendingType, hb, he]
  · intro s hb he
    have hnone : pendingManufacturer t b = none := by
      simp only [pendingManufacturer, hb]
      rw [if_neg (fun hne => hne he)]
    simp [applyFields, computeFields, hnone]
  · intro s hb he; simp [applyFields, computeFields, pendingFormat, hb, he]
  · intro s hb he; simp [applyFields, computeFields, pendingWebWidth, hb, he]

/-- C10: a tool update whose status is not one of the two maintenance
sentinel strings writes no maintenance ledger entry and touches no rollup;
every tool keeps its counters, cumulative life and baseline; every field
not provided in the request — and every provided field equal (under the
code's comparison) to its current value — keeps its current value; and a
request in which no provided field differs leaves the state entirely
unchanged, reporting no changes. -/
theorem update_non_sentinel_frame (u : User) (iid : Nat) (b : UpdateBody)
    (now : Int) (db : DB) (t : Tool)
    (hfind : db.inventory.find? (fun x => x.inventory_id == iid) = some t)
    (hauth : ¬(u.role = "UnitAdmin" ∧ u.factory_id ≠ t.current_factory_id))
    (hdist : db.inventory.Pairwise (fun a b =>
      a.inventory_id ≠ b.inventory_id))
    (hsent : ∀ s, b.status = some s →
      s ≠ "sent to madern for regrinding" ∧
      s ≠ "sent to madern for resegmentation") :
    (updateInventoryTool u iid b now db).1.ledger = db.ledger ∧
    (updateInventoryTool u iid b now db).1.rollups = db.rollups ∧
    (∀ p ∈ ((updateInventoryTool u iid b now db).1.inventory).zip
        db.inventory,
      p.1.number_of_regrinding = p.2.number_of_regrinding ∧
      p.1.number_of_resegmentation = p.2.number_of_resegmentation ∧
      p.1.current_tool_life = p.2.current_tool_life ∧
      p.1.baseline_tool_life = p.2.baseline_tool_life ∧
      (b.status = none → p.1.status = p.2.status) ∧
      (b.current_factory_id = none →
        p.1.current_factory_id = p.2.current_factory_id) ∧
      (b.format = none → p.1.format = p.2.format) ∧
      (b.tool_name = none → p.1.tool_name = p.2.tool_name) ∧
      (b.material_id = none → p.1.material_id = p.2.material_id) ∧
      (b.batch_id = none → p.1.batch_id = p.2.batch_id) ∧
      (b.type = none → p.1.type = p.2.type) ∧
      (b.manufacturer = none → p.1.manufacturer = p.2.manufacturer) ∧
      (b.web_width = none → p.1.web_width = p.2.web_width) ∧
      (∀ s, b.status = some s → s = p.2.status →
        p.1.status = p.2.status) ∧
      (∀ v, b.current_factory_id = some v → v = p.2.current_factory_id →
        p.1.current_factory_id = p.2.current_factory_id) ∧
      (∀ s, b.tool_name = some s → s = p.2.tool_name →
        p.1.tool_name = p.2.tool_name) ∧
      (∀ v, b.material_id = some v → v = p.2.material_id →
        p.1.material_id = p.2.material_id) ∧
      (∀ s, b.batch_id = some s → s = p.2.batch_id →
        p.1.batch_id = p.2.batch_id) ∧
      (∀ s, b.type = some s → s = p.2.type → p.1.type = p.2.type) ∧
      (∀ s, b.manufacturer = some s → some s = p.2.manufacturer →
        p.1.manufacturer = p.2.manufacturer) ∧
      (∀ s, b.format = some s → normInput (some s) = normStored p.2.format →
        p.1.format = p.2.format) ∧
      (∀ s, b.web_width = some s →
        normInput (some s) = normStored p.2.web_width →
        p.1.web_width = p.2.web_width)) ∧
    ((∀ s, b.status = some s → s = t.status) →
     (∀ v, b.current_factory_id = some v → v = t.current_factory_id) →
     (∀ s, b.format = some s → normInput (some s) = normStored t.format) →
     (∀ s, b.tool_name = some s → s = t.tool_name) →
     (∀ v, b.material_id = some v → v = t.material_id) →
     (∀ s, b.batch_id = some s → s = t.batch_id) →
     (∀ s, b.type = some s → s = t.type) →
     (∀ s, b.manufacturer = some s → some s = t.manufacturer) →
     (∀ s, b.web_width = some s → normInput (some s) = normStored t.web_width) →
     updateInventoryTool u iid b now db = (db, UpdateOut.noChanges)) := by
  have hmtnone : maintenanceType t b = none :=
    maintenanceType_none_of_nonsentinel t b hsent
  have htmem : t ∈ db.inventory := List.mem_of_find?_eq_some hfind
  have htid : t.inventory_id = iid := by
    have := List.find?_some hfind
    simpa using this
  have hnochange : (∀ s, b.status = some s → s = t.status) →
      (∀ v, b.current_factory_id = some v → v = t.current_factory_id) →
      (∀ s, b.format = some s → normInput (some s) = normStored t.format) →
      (∀ s, b.tool_name = some s → s = t.tool_name) →
      (∀ v, b.material_id = some v → v = t.material_id) →
      (∀ s, b.batch_id = some s → s = t.batch_id) →
      (∀ s, b.type = some s → s = t.type) →
      (∀ s, b.manufacturer = some s → some s = t.manufacturer) →
      (∀ s, b.web_width = some s →
        normInput (some s) = normStored t.web_width) →
      hasChanges (computeFields t b) = false := by
    intro h1 h2 h3 h4 h5 h6 h7 h8 h9
    have p1 : pendingStatus t b = none := by
      cases hs : b.status with
      | none => simp [pendingStatus, hs]
      | some s => simp [pendingStatus, hs, h1 s hs]
    have p2 : pendingFactory t b = none := by
      cases hs : b.current_factory_id with
      | none => simp [pendingFactory, hs]
      | some v => simp [pendingFactory, hs, h2 v hs]
    have p3 : pendingFormat t b = none := by
      cases hs : b.format with
      | none => simp [pendingFormat, hs]
      | some s => simp [pendingFormat, hs, h3 s hs]
    have p4 : pendingName t b = none := by
      cases hs : b.tool_name with
      | none => simp [pendingName, hs]
      | some s => simp [pendingName, hs, h4 s hs]
    have p5 : pendingMaterial t b = none := by
      cases hs : b.material_id with
      | none => simp [pendingMaterial, hs]
      | some v => simp [pendingMaterial, hs, h5 v hs]
    have p6 : pendingBatch t b = none := by
      cases hs : b.batch_id with
      | none => simp [pendingBatch, hs]
      | some s => simp [pendingBatch, hs, h6 s hs]
    have p7 : pendingType t b = none := by
      cases hs : b.type with
      | none => simp [pendingType, hs]
      | some s => simp [pendingType, hs, h7 s hs]
    have p8 : pendingManufacturer t b = none := by
      cases hs : b.manufacturer with
      | none => simp [pendingManufacturer, hs]
      | some s =>
        simp only [pendingManufacturer, hs]
        rw [if_neg (fun hne => hne (h8 s hs))]
    have p9 : pendingWebWidth t b = none := by
      cases hs : b.web_width with
      | none => simp [pendingWebWidth, hs]
      | some s => simp [pendingWebWidth, hs, h9 s hs]
    simp [hasChanges, computeFields, p1, p2, p3, p4, p5, p6, p7, p8, p9]
  by_cases hch : hasChanges (computeFields t b) = false
  · have heq := updateInventoryTool_nochange_eq u iid b now db t hfind hauth hch
    rw [heq]
    refine ⟨rfl, rfl, ?_, fun _ _ _ _ _ _ _ _ _ => rfl⟩
    intro p hp
    have hps := zip_self_eq _ p hp
    simp [hps]
  · have hch' : hasChanges (computeFields t b) = true := by
      revert hch
      cases hasChanges (computeFields t b) <;> simp
    have heq := updateInventoryTool_plain_eq u iid b now db t hfind hauth
      hmtnone hch'
    rw [heq]
    refine ⟨rfl, rfl, ?_, ?_⟩
    · intro p hp
      obtain ⟨hp1, hmem⟩ := zip_map_self _ _ p hp
      by_cases hid : (p.2.inventory_id == iid) = true
      · have hpt : p.2 = t := by
          refine eq_of_pairwise_key (fun r => r.inventory_id) db.inventory
            hdist p.2 hmem t htmem ?_
          show p.2.inventory_id = t.inventory_id
          rw [htid]
          simpa using hid
        rw [hp1, if_pos hid, hpt]
        exact applyFields_nonmaint_frame t b hmtnone
      · rw [hp1, if_neg hid]
        simp
    · intro h1 h2 h3 h4 h5 h6 h7 h8 h9
      exact absurd (hnochange h1 h2 h3 h4 h5 h6 h7 h8 h9) hch

/-- Witness for C2: on the concrete state, the regrinding counter goes to
3, the life to 150, the new entry gets sequence 3 and consumed delta 30. -/
theorem applyMaintenance_effects_witness :
    ∃ t' e,
      (updateInventoryTool uW 1 bW 50 dbW).2 = UpdateOut.updated t' (some e) ∧
      t'.number_of_regrinding = 3 ∧ t'.current_tool_life = 150 ∧
      e.tool_life_at_event = 150 ∧ e.event_sequence = 3 ∧
      e.life_consumed = 30 := by
  obtain ⟨t', e, hout, _hledger, hreg, _hres, hlife, _htid, _hety, htla,
      _hlt, _hone, hsucc, _hempty, hlast⟩ :=
    applyMaintenance_effects uW 1 bW 50 dbW t0W "regrinding"
      (by decide) (by decide) (by decide)
  have h2 : t'.current_tool_life = 150 := by rw [hlife]; decide
  have h1 : t'.number_of_regrinding = 3 := by rw [(hreg rfl).1]; decide
  have h3 : e.tool_life_at_event = 150 := by rw [htla]; exact h2
  have h4 : e.event_sequence = 3 := by
    rcases hsucc e0W (by decide) (by decide) (by decide) with
      ⟨x, hxmem, _, _, hseq⟩
    have hx : x = e0W := by simpa [dbW] using hxmem
    rw [hseq, hx]; decide
  have h5 : e.life_consumed = 30 := by
    have hl := hlast e0W (by decide) (by decide) (by decide) (by decide)
      (by decide)
    rw [hl, h2]; decide
  exact ⟨t', e, hout, h1, h2, h3, h4, h5⟩

/-! ## C5: apply then immediately reverse -/

/-- `delApply` never touches ids, the cumulative life or the baseline. -/
theorem delApply_frame (record : MEvent) (c t : Tool) :
    (delApply record c t).inventory_id = t.inventory_id ∧
    (delApply record c t).tool_id = t.tool_id ∧
    (delApply record c t).current_tool_life = t.current_tool_life ∧
    (delApply record c t).baseline_tool_life = t.baseline_tool_life := by
  unfold delApply
  by_cases h1 : record.event_type = "regrinding" <;>
    by_cases h2 : delRevert record c = true <;>
    simp [h1, h2]

/-- Reversing a regrinding entry decrements exactly the regrinding
counter (unfloored). -/
theorem delApply_counters_reg (record : MEvent) (c t : Tool)
    (h : record.event_type = "regrinding") :
    (delApply record c t).number_of_regrinding =
      t.number_of_regrinding - 1 ∧
    (delApply record c t).number_of_resegmentation =
      t.number_of_resegmentation := by
  unfold delApply
  by_cases h2 : delRevert record c = true <;> simp [h, h2]

/-- Reversing a resegmentation entry decrements exactly the
resegmentation counter (unfloored). -/
theorem delApply_counters_reseg (record : MEvent) (c t : Tool)
    (h : record.event_type = "resegmentation") :
    (delApply record c t).number_of_resegmentation =
      t.number_of_resegmentation - 1 ∧
    (delApply record c t).number_of_regrinding =
      t.number_of_regrinding := by
  unfold delApply
  have hne : ¬(record.event_type = "regrinding") := by simp [h]
  by_cases h2 : delRevert record c = true <;> simp [hne, h2]

/-- C5: applying a maintenance event and then immediately reversing the
created ledger entry restores `number_of_regrinding` and
`number_of_resegmentation` to their pre-event values and restores the
ledger, while `current_tool_life` is not restored: it keeps the advanced
value it had right after the event was applied. -/
theorem apply_then_reverse_restores_counters (u : User) (iid : Nat)
    (b : UpdateBody) (now : Int) (db : DB) (t : Tool) (ety : String)
    (hfind : db.inventory.find? (fun x => x.inventory_id == iid) = some t)
    (hauth : ¬(u.role = "UnitAdmin" ∧ u.factory_id ≠ t.current_factory_id))
    (hmt : maintenanceType t b = some ety)
    (hdistTool : db.inventory.Pairwise (fun a c => a.tool_id ≠ c.tool_id))
    (hfresh : ∀ x ∈ db.ledger, x.history_id ≠ db.next_history_id) :
    ∃ t1 t2,
      (updateInventoryTool u iid b now db).1.inventory.find?
        (fun x => x.inventory_id == iid) = some t1 ∧
      (deleteMaintenanceHistory db.next_history_id
        (updateInventoryTool u iid b now db).1).1.inventory.find?
        (fun x => x.inventory_id == iid) = some t2 ∧
      (deleteMaintenanceHistory db.next_history_id
        (updateInventoryTool u iid b now db).1).1.ledger = db.ledger ∧
      t2.number_of_regrinding = t.number_of_regrinding ∧
      t2.number_of_resegmentation = t.number_of_resegmentation ∧
      t1.current_tool_life = t.current_tool_life + jsOr b.life_consumed 0 ∧
      t2.current_tool_life = t1.current_tool_life := by
  have heq := updateInventoryTool_maint_eq u iid b now db t ety hfind hauth hmt
  have htid : t.inventory_id = iid := by
    have := List.find?_some hfind
    simpa using this
  have htmem : t ∈ db.inventory := List.mem_of_find?_eq_some hfind
  have hetool : (newMaintEvent db t b ety now).tool_id = t.tool_id := rfl
  have hehist : (newMaintEvent db t b ety now).history_id =
    db.next_history_id := rfl
  -- the updated tool is the one found in the updated inventory
  have hf1 : (db.inventory.map (fun x =>
      if x.inventory_id == iid then applyFields t (computeFields t b)
      else x)).find? (fun x => x.inventory_id == iid) =
      some (applyFields t (computeFields t b)) := by
    rw [List.find?_map]
    have hcong : db.inventory.find? ((fun x : Tool => x.inventory_id == iid) ∘
        (fun x => if x.inventory_id == iid then
          applyFields t (computeFields t b) else x)) =
        db.inventory.find? (fun x => x.inventory_id == iid) := by
      apply find?_congr_mem
      intro x hx
      by_cases hid : (x.inventory_id == iid) = true
      · simp only [Function.comp_apply, hid, if_pos]
        have : (applyFields t (computeFields t b)).inventory_id =
          t.inventory_id := rfl
        rw [this, htid]
        simp
      · simp only [Function.comp_apply, hid]
        rw [if_neg (by simp [hid])]
        simp only [hid]
    rw [hcong, hfind]
    simp only [Option.map_some']
    rw [if_pos (by rw [htid]; simp)]
  -- the created ledger entry is found by its history id
  have hle : ((db.ledger ++ [newMaintEvent db t b ety now]).find?
      (fun x => x.history_id == db.next_history_id)) =
      some (newMaintEvent db t b ety now) := by
    have hpre : ∀ x ∈ db.ledger,
        (fun x : MEvent => x.history_id == db.next_history_id) x = false := by
      intro x hx
      have := hfresh x hx
      simpa using this
    rw [find?_append_left_none _ _ _ hpre]
    rw [List.find?_cons_of_pos]
    rw [hehist]
    simp
  -- the updated tool is found by the entry's tool id
  have hf2pre : (db.inventory.map (fun x =>
      if x.inventory_id == iid then applyFields t (computeFields t b)
      else x)).find?
      (fun x => x.tool_id == (newMaintEvent db t b ety now).tool_id) =
      some (applyFields t (computeFields t b)) := by
    rw [List.find?_map]
    have hcong : db.inventory.find?
        ((fun x : Tool => x.tool_id == (newMaintEvent db t b ety now).tool_id) ∘
        (fun x => if x.inventory_id == iid then
          applyFields t (computeFields t b) else x)) =
        db.inventory.find? (fun x => x.inventory_id == iid) := by
      apply find?_congr_mem
      intro x hx
      by_cases hid : (x.inventory_id == iid) = true
      · simp only [Function.comp_apply, hid, if_pos]
        rw [hetool]
        have : (applyFields t (computeFields t b)).tool_id = t.tool_id := rfl
        rw [this]
        simp
      · simp only [Function.comp_apply, hid]
        rw [if_neg (by simp [hid])]
        rw [hetool]
        have hxt : (x.tool_id == t.tool_id) = false := by
          by_cases hq : (x.tool_id == t.tool_id) = true
          · exfalso
            have hxeq : x = t := by
              refine eq_of_pairwise_key (fun r => r.tool_id) db.inventory
                hdistTool x hx t htmem ?_
              show x.tool_id = t.tool_id
              simpa using hq
            rw [hxeq, htid] at hid
            simp at hid
          · simpa using hq
        rw [hxt]
    rw [hcong, hfind]
    simp only [Option.map_some']
    rw [if_pos (by rw [htid]; simp)]
  rw [heq]
  have hdel := deleteMaintenanceHistory_eq db.next_history_id
    ({ db with
        inventory := db.inventory.map (fun x =>
          if x.inventory_id == iid then applyFields t (computeFields t b)
          else x)
        ledger := db.ledger ++ [newMaintEvent db t b ety now]
        next_history_id := db.next_history_id + 1 })
    (newMaintEvent db t b ety now) (applyFields t (computeFields t b))
    hle hf2pre
  rw [hdel]
  refine ⟨applyFields t (computeFields t b),
    delApply (newMaintEvent db t b ety now)
      (applyFields t (computeFields t b))
      (applyFields t (computeFields t b)), hf1, ?_, ?_, ?_, ?_, ?_, ?_⟩
  · -- find? after the decrement map
    show ((db.inventory.map (fun x =>
        if x.inventory_id == iid then applyFields t (computeFields t b)
        else x)).map (fun x =>
        if x.tool_id == (newMaintEvent db t b ety now).tool_id then
          delApply (newMaintEvent db t b ety now)
            (applyFields t (computeFields t b)) x
        else x)).find? (fun x => x.inventory_id == iid) = _
    rw [List.find?_map]
    have hcong : (db.inventory.map (fun x =>
        if x.inventory_id == iid then applyFields t (computeFields t b)
        else x)).find?
        ((fun x : Tool => x.inventory_id == iid) ∘
        (fun x => if x.tool_id == (newMaintEvent db t b ety now).tool_id then
          delApply (newMaintEvent db t b ety now)
            (applyFields t (computeFields t b)) x
        else x)) =
        (db.inventory.map (fun x =>
          if x.inventory_id == iid then applyFields t (computeFields t b)
          else x)).find? (fun x : Tool => x.inventory_id == iid) := by
      apply find?_congr_mem
      intro x _
      by_cases hq : (x.tool_id == (newMaintEvent db t b ety now).tool_id) = true
      · simp only [Function.comp_apply, hq, if_pos]
        have : (delApply (newMaintEvent db t b ety now)
            (applyFields t (computeFields t b)) x).inventory_id =
            x.inventory_id :=
          (delApply_frame _ _ _).1
        rw [this]
      · simp only [Function.comp_apply, hq]
        rw [if_neg (by simp [hq])]
    rw [hcong, hf1]
    simp only [Option.map_some']
    have hcond : ((applyFields t (computeFields t b)).tool_id ==
        (newMaintEvent db t b ety now).tool_id) = true := by
      rw [hetool]
      have : (applyFields t (computeFields t b)).tool_id = t.tool_id := rfl
      rw [this]
      simp
    rw [if_pos hcond]
  · -- the ledger is restored
    show (db.ledger ++ [newMaintEvent db t b ety now]).filter
        (fun e => !(e.history_id == db.next_history_id)) = db.ledger
    rw [List.filter_append]
    have h1 : db.ledger.filter
        (fun e => !(e.history_id == db.next_history_id)) = db.ledger := by
      rw [List.filter_eq_self]
      intro x hx
      have := hfresh x hx
      simpa using this
    have h2 : [newMaintEvent db t b ety now].filter
        (fun e => !(e.history_id == db.next_history_id)) = [] := by
      simp [List.filter, hehist]
    rw [h1, h2, List.append_nil]
  · -- regrinding counter restored
    rcases maintenanceType_spec t b ety hmt with ⟨hre, _, _⟩ | ⟨hre, _, _⟩
    · have hc := delApply_counters_reg (newMaintEvent db t b ety now)
        (applyFields t (computeFields t b))
        (applyFields t (computeFields t b)) (by rw [hre] at hmt ⊢; rfl)
      rw [hc.1, (applyFields_maint_regrind t b (hre ▸ hmt)).1]
      omega
    · have hc := delApply_counters_reseg (newMaintEvent db t b ety now)
        (applyFields t (computeFields t b))
        (applyFields t (computeFields t b)) (by rw [hre] at hmt ⊢; rfl)
      rw [hc.2, (applyFields_maint_reseg t b (hre ▸ hmt)).2]
  · -- resegmentation counter restored
    rcases maintenanceType_spec t b ety hmt with ⟨hre, _, _⟩ | ⟨hre, _, _⟩
    · have hc := delApply_counters_reg (newMaintEvent db t b ety now)
        (applyFields t (computeFields t b))
        (applyFields t (computeFields t b)) (by rw [hre] at hmt ⊢; rfl)
      rw [hc.2, (applyFields_maint_regrind t b (hre ▸ hmt)).2]
    · have hc := delApply_counters_reseg (newMaintEvent db t b ety now)
        (applyFields t (computeFields t b))
        (applyFields t (computeFields t b)) (by rw [hre] at hmt ⊢; rfl)
      rw [hc.1, (applyFields_maint_reseg t b (hre ▸ hmt)).1]
      omega
  · exact applyFields_maint_life t b ety hmt
  · exact (delApply_frame _ _ _).2.2.1

/-- Witness for C5: on the concrete state, apply-then-reverse brings the
regrinding counter back to 2 while the life keeps the advanced value 150. -/
theorem apply_then_reverse_restores_counters_witness :
    ∃ t1 t2,
      (updateInventoryTool uW 1 bW 50 dbW).1.inventory.find?
        (fun x => x.inventory_id == 1) = some t1 ∧
      (deleteMaintenanceHistory dbW.next_history_id
        (updateInventoryTool uW 1 bW 50 dbW).1).1.inventory.find?
        (fun x => x.inventory_id == 1) = some t2 ∧
      t2.number_of_regrinding = 2 ∧ t2.number_of_resegmentation = 0 ∧
      t1.current_tool_life = 150 ∧ t2.current_tool_life = 150 := by
  obtain ⟨t1, t2, h1, h2, _hled, hreg, hres, hlife1, hlife2⟩ :=
    apply_then_reverse_restores_counters uW 1 bW 50 dbW t0W "regrinding"
      (by decide) (by decide) (by decide) (by decide) (by decide)
  refine ⟨t1, t2, h1, h2, ?_, ?_, ?_, ?_⟩
  · rw [hreg]; decide
  · rw [hres]; decide
  · rw [hlife1]; decide
  · rw [hlife2, hlife1]; decide

/-- A concrete non-sentinel status update. -/
def bNW : UpdateBody := { status := some "in use" }

/-- Witness for C10: a plain status change writes no ledger entry and no
rollup. -/
theorem update_non_sentinel_frame_witness :
    (updateInventoryTool uW 1 bNW 50 dbW).1.ledger = dbW.ledger ∧
    (updateInventoryTool uW 1 bNW 50 dbW).1.rollups = dbW.rollups := by
  obtain ⟨hl, hr, -, -⟩ :=
    update_non_sentinel_frame uW 1 bNW 50 dbW t0W (by decide) (by decide)
      (by decide)
      (by intro s hs
          have hs' : some "in use" = some s := hs
          injection hs' with h
          subst h
          exact ⟨by decide, by decide⟩)
  exact ⟨hl, hr⟩

/-! ## C6: reversal decrements without flooring (code bug) -/

/-- A tool whose regrinding counter is already 0. -/
def t6W : Tool :=
  { inventory_id := 1, tool_id := 1, material_id := 5, batch_id := "B"
    tool_name := "T", type := "cutting", format := none, status := "running"
    current_factory_id := 1, manufacturer := none, web_width := none
    current_tool_life := 100, baseline_tool_life := 100
    number_of_regrinding := 0, number_of_resegmentation := 0, total_hlp := 0 }

/-- An existing regrinding ledger entry of that tool. -/
def e6W : MEvent :=
  { history_id := 1, tool_id := 1, event_type := "regrinding"
    tool_life_at_event := 100, life_consumed := 100, hlp_count_at_event := 0
    event_sequence := 1, timestamp := 10, is_deleted := false }

/-- The failing state for C6. -/
def db6W : DB :=
  { inventory := [t6W], ledger := [e6W], rollups := [], factories := [1]
    next_inventory_id := 2, next_tool_id := 2, next_history_id := 2 }

/-- C6 (code bug): reversing a regrinding ledger entry while the stored
counter is already 0 drives the stored counter to -1: the SQL update
writes `count - 1` unfloored, even though the code computes the floored
`newCount` (here 0) for its status decision.  The claim's "floored at
zero, never negative" is violated by the stored value. -/
theorem reverse_decrement_not_floored :
    ∃ t2, (deleteMaintenanceHistory 1 db6W).1.inventory = [t2] ∧
      t2.number_of_regrinding = -1 ∧ t2.number_of_regrinding < 0 ∧
      delNewCount e6W t6W = 0 ∧
      (deleteMaintenanceHistory 1 db6W).1.ledger = [] := by
  refine ⟨_, rfl, by decide, by decide, by decide, by decide⟩

/-! ## C4: historical import of the worked example -/

/-- The lifecycle events of the specification's worked import example. -/
def specLifecycle : List LifecycleEventIn :=
  [{ event_type := "initial", life_value := some 0, date := some 1 },
   { event_type := "regrinding", life_value := some 100, date := some 2 },
   { event_type := "resegmentation", life_value := some 150, date := some 3 }]

/-- The worked import example without a supplied `current_tool_life`. -/
def importSpecNoLife : ToolImportIn :=
  { material_id := some 5, batch_id := some "B1", tool_name := some "T1"
    current_factory_id := some 1, type := some "cutting"
    lifecycle_events := some specLifecycle }

/-- The worked import example with the matching `current_tool_life`. -/
def importSpecWithLife : ToolImportIn :=
  { material_id := some 5, batch_id := some "B1", tool_name := some "T1"
    current_factory_id := some 1, type := some "cutting"
    current_tool_life := some 150
    lifecycle_events := some specLifecycle }

/-- C4 counterexample: importing a tool whose `lifecycle_events` are
[{initial}, {regrinding, life=100}, {resegmentation, life=150}] does NOT
produce `current_tool_life = 150` derived from the events: the importer
copies the caller-supplied `current_tool_life`, so when the request omits
it the projection row ends with `current_tool_life = 0`, not 150, while
the counters are still 1 and 1. -/
theorem import_life_not_from_events :
    ∃ t, (processImportItem uW 9 (initDB [1]) importSpecNoLife).1.inventory =
        [t] ∧
      t.number_of_regrinding = 1 ∧ t.number_of_resegmentation = 1 ∧
      t.current_tool_life = 0 ∧ t.current_tool_life ≠ 150 := by
  refine ⟨_, rfl, by decide, by decide, by decide, by decide⟩

/-- C4 (amended): when the import spec also supplies
`current_tool_life = 150` (the final cumulative life), the example yields
`current_tool_life = baseline_tool_life = 150`, counters 1 and 1, and
exactly two ledger entries with `life_consumed` 100 and 50; and in
general the imported projection row carries
`current_tool_life = baseline_tool_life =` the caller-supplied value,
defaulting to 0 when absent or 0. -/
theorem import_example_amended :
    (∃ t, (processImportItem uW 9 (initDB [1])
        importSpecWithLife).1.inventory = [t] ∧
      t.current_tool_life = 150 ∧ t.baseline_tool_life = 150 ∧
      t.number_of_regrinding = 1 ∧ t.number_of_resegmentation = 1 ∧
      ((processImportItem uW 9 (initDB [1]) importSpecWithLife).1.ledger.map
        (fun e => (e.event_type, e.life_consumed))) =
        [("regrinding", 100), ("resegmentation", 50)]) ∧
    (∀ (u : User) (now : Int) (db : DB) (i : ToolImportIn) (fid : Int),
      validateToolInput u db i.material_id i.batch_id i.tool_name i.type
        i.current_factory_id = .ok fid →
      ∃ t, (processImportItem u now db i).1.inventory =
          db.inventory ++ [t] ∧
        t.current_tool_life = t.baseline_tool_life ∧
        (i.current_tool_life = none → t.current_tool_life = 0) ∧
        (i.current_tool_life = some 0 → t.current_tool_life = 0) ∧
        (∀ v, i.current_tool_life = some v → v ≠ 0 →
          t.current_tool_life = v)) := by
  constructor
  · refine ⟨_, rfl, by decide, by decide, by decide, by decide, by decide⟩
  · intro u now db i fid hv
    unfold processImportItem
    rw [hv]
    refine ⟨_, rfl, rfl, ?_, ?_, ?_⟩
    · intro hc
      show jsOr i.current_tool_life 0 = 0
      rw [hc]
      rfl
    · intro hc
      show jsOr i.current_tool_life 0 = 0
      rw [hc]
      rfl
    · intro v hc hvne
      show jsOr i.current_tool_life 0 = v
      rw [hc]
      simp [jsOr, hvne]

/-- Witness for C4's amended general part: on the concrete valid import
spec, validation succeeds and the created row copies life 150. -/
theorem import_example_amended_witness :
    validateToolInput uW (initDB [1]) importSpecWithLife.material_id
      importSpecWithLife.batch_id importSpecWithLife.tool_name
      importSpecWithLife.type importSpecWithLife.current_factory_id =
      .ok 1 ∧
    ∃ t, (processImportItem uW 9 (initDB [1])
        importSpecWithLife).1.inventory = (initDB [1]).inventory ++ [t] ∧
      t.current_tool_life = t.baseline_tool_life ∧
      (importSpecWithLife.current_tool_life = none →
        t.current_tool_life = 0) ∧
      (importSpecWithLife.current_tool_life = some 0 →
        t.current_tool_life = 0) ∧
      (∀ v, importSpecWithLife.current_tool_life = some v → v ≠ 0 →
        t.current_tool_life = v) :=
  ⟨by decide,
   import_example_amended.2 uW 9 (initDB [1]) importSpecWithLife 1 (by decide)⟩

/-! ## C8: bulk import never fails wholesale -/

/-- A failed import item leaves the state untouched. -/
theorem processImportItem_err (u : User) (now : Int) (db : DB)
    (i : ToolImportIn) (db1 : DB) (m : String)
    (hp : processImportItem u now db i = (db1, .err m)) : db1 = db := by
  unfold processImportItem at hp
  cases hv : validateToolInput u db i.material_id i.batch_id i.tool_name
      i.type i.current_factory_id with
  | error m0 =>
    simp only [hv] at hp
    injection hp with h1 _
    exact h1.symm
  | ok fid =>
    simp only [hv] at hp
    injection hp with _ h2
    exact ImportItemOut.noConfusion h2

/-- A successful import item appends exactly one tool, carrying the
reported fresh tool id. -/
theorem processImportItem_ok (u : User) (now : Int) (db : DB)
    (i : ToolImportIn) (db1 : DB) (tid n : Nat)
    (hp : processImportItem u now db i = (db1, .ok tid n)) :
    tid = db.next_tool_id ∧
    ∃ tl, db1.inventory = db.inventory ++ [tl] ∧ tl.tool_id = tid := by
  unfold processImportItem at hp
  cases hv : validateToolInput u db i.material_id i.batch_id i.tool_name
      i.type i.current_factory_id with
  | error m0 =>
    simp only [hv] at hp
    injection hp with _ h2
    exact ImportItemOut.noConfusion h2
  | ok fid =>
    simp only [hv] at hp
    injection hp with h1 h2
    injection h2 with h2a _
    subst h1
    exact ⟨h2a.symm, _, rfl, h2a⟩

/-- Import items only ever extend the inventory. -/
theorem processImportItem_extends (u : User) (now : Int) (db : DB)
    (i : ToolImportIn) :
    ∃ rest, (processImportItem u now db i).1.inventory =
      db.inventory ++ rest := by
  unfold processImportItem
  cases hv : validateToolInput u db i.material_id i.batch_id i.tool_name
      i.type i.current_factory_id with
  | error m0 =>
    simp only [hv]
    exact ⟨[], (List.append_nil _).symm⟩
  | ok fid =>
    simp only [hv]
    exact ⟨_, rfl⟩

/-- Each item of the batch loop lands in exactly one of the two result
lists. -/
theorem importLoop_counts (u : User) (now : Int) :
    ∀ (tools : List ToolImportIn) (db0 : DB) (r0 : ImportResults),
      (tools.foldl (importLoop u now) (db0, r0)).2.success.length +
        (tools.foldl (importLoop u now) (db0, r0)).2.errors.length =
        r0.success.length + r0.errors.length + tools.length := by
  intro tools
  induction tools with
  | nil =>
    intro db0 r0
    simp
  | cons i is ih =>
    intro db0 r0
    rw [List.foldl_cons]
    rcases hp : processImportItem u now db0 i with ⟨db1, out⟩
    cases out with
    | ok tid n =>
      have hil : importLoop u now (db0, r0) i =
          (db1, { r0 with success := r0.success ++ [(tid, n)] }) := by
        simp only [importLoop, hp]
      rw [hil, ih]
      simp only [List.length_append, List.length_cons, List.length_nil]
      omega
    | err m =>
      have hil : importLoop u now (db0, r0) i =
          (db1, { r0 with errors := r0.errors ++ [m] }) := by
        simp only [importLoop, hp]
      rw [hil, ih]
      simp only [List.length_append, List.length_cons, List.length_nil]
      omega

/-- Every success reported by the batch loop is persisted: the final
inventory holds a tool with the reported tool id. -/
theorem importLoop_persist (u : User) (now : Int) :
    ∀ (tools : List ToolImportIn) (db0 : DB) (r0 : ImportResults),
      (∀ p ∈ r0.success, ∃ t ∈ db0.inventory, t.tool_id = p.1) →
      ∀ p ∈ (tools.foldl (importLoop u now) (db0, r0)).2.success,
        ∃ t ∈ (tools.foldl (importLoop u now) (db0, r0)).1.inventory,
          t.tool_id = p.1 := by
  intro tools
  induction tools with
  | nil =>
    intro db0 r0 hinv p hp
    exact hinv p hp
  | cons i is ih =>
    intro db0 r0 hinv
    rw [List.foldl_cons]
    rcases hp : processImportItem u now db0 i with ⟨db1, out⟩
    have hext : ∃ rest, db1.inventory = db0.inventory ++ rest := by
      have := processImportItem_extends u now db0 i
      rw [hp] at this
      exact this
    cases out with
    | ok tid n =>
      have hil : importLoop u now (db0, r0) i =
          (db1, { r0 with success := r0.success ++ [(tid, n)] }) := by
        simp only [importLoop, hp]
      rw [hil]
      refine ih db1 _ ?_
      intro p hps
      rcases List.mem_append.mp hps with hold | hnew
      · rcases hinv p hold with ⟨t, htm, hti⟩
        rcases hext with ⟨rest, hrest⟩
        exact ⟨t, by rw [hrest]; exact List.mem_append.mpr (Or.inl htm), hti⟩
      · rcases processImportItem_ok u now db0 i db1 tid n hp with
          ⟨_, tl, hinvq, htl⟩
        have hpeq : p = (tid, n) := by simpa using hnew
        refine ⟨tl, ?_, ?_⟩
        · rw [hinvq]
          exact List.mem_append.mpr (Or.inr (List.mem_cons_self _ _))
        · rw [htl, hpeq]
    | err m =>
      have hil : importLoop u now (db0, r0) i =
          (db1, { r0 with errors := r0.errors ++ [m] }) := by
        simp only [importLoop, hp]
      rw [hil]
      refine ih db1 _ ?_
      intro p hps
      rcases hinv p hps with ⟨t, htm, hti⟩
      rcases hext with ⟨rest, hrest⟩
      exact ⟨t, by rw [hrest]; exact List.mem_append.mpr (Or.inl htm), hti⟩

/-- A batch of five import specs: three valid, one missing its tool name,
one with an invalid type. -/
def batch5 : List ToolImportIn :=
  [{ material_id := some 1, batch_id := some "B1", tool_name := some "T1",
     current_factory_id := some 1, type := some "cutting" },
   { material_id := some 2, batch_id := some "B2", tool_name := some "T2",
     current_factory_id := some 1, type := some "creasing" },
   { material_id := some 3, batch_id := some "B3", tool_name := some "T3",
     current_factory_id := some 1, type := some "embossing" },
   { material_id := some 4, batch_id := some "B4",
     current_factory_id := some 1, type := some "cutting" },
   { material_id := some 5, batch_id := some "B5", tool_name := some "T5",
     current_factory_id := some 1, type := some "drill" }]

/-- C8: bulk import never fails wholesale: every item of every batch lands
in exactly one of the success/error lists (their lengths always add up to
the batch size), every reported success is fully persisted in the final
inventory, and the concrete batch of 3 valid and 2 invalid tools reports
exactly 3 successes and 2 failures with the 3 valid tools persisted. -/
theorem importTools_partial_success :
    (∀ (u : User) (tools : List ToolImportIn) (now : Int) (db : DB),
      (createHistoricalTools u tools now db).2.success.length +
        (createHistoricalTools u tools now db).2.errors.length =
        tools.length) ∧
    (∀ (u : User) (tools : List ToolImportIn) (now : Int) (db : DB),
      ∀ p ∈ (createHistoricalTools u tools now db).2.success,
        ∃ t ∈ (createHistoricalTools u tools now db).1.inventory,
          t.tool_id = p.1) ∧
    ((createHistoricalTools uW batch5 9 (initDB [1])).2.success.length = 3 ∧
     (createHistoricalTools uW batch5 9 (initDB [1])).2.errors.length = 2 ∧
     ((createHistoricalTools uW batch5 9 (initDB [1])).1.inventory.map
       (fun t => (t.tool_id, t.tool_name))) =
       [(1, "T1"), (2, "T2"), (3, "T3")]) := by
  refine ⟨?_, ?_, by decide, by decide, by decide⟩
  · intro u tools now db
    unfold createHistoricalTools
    have := importLoop_counts u now tools db ⟨[], []⟩
    simpa using this
  · intro u tools now db
    unfold createHistoricalTools
    refine importLoop_persist u now tools db ⟨[], []⟩ ?_
    intro p hp
    exact absurd hp (List.not_mem_nil p)

/-- Witness for C8: the first reported success of the 3-valid/2-invalid
batch is persisted as tool 1. -/
theorem importTools_partial_success_witness :
    ∃ t ∈ (createHistoricalTools uW batch5 9 (initDB [1])).1.inventory,
      t.tool_id = 1 :=
  importTools_partial_success.2.1 uW batch5 9 (initDB [1]) (1, 0) (by decide)

/-! ## C1: the ledger/projection invariant over operation sequences -/

/-- Does a ledger event count towards `countType ledger tid ty`? -/
def matchesType (tid : Nat) (ty : String) (e : MEvent) : Bool :=
  e.tool_id == tid && e.event_type == ty && !e.is_deleted

/-- `countType` splits over appends. -/
theorem countType_append (l1 l2 : List MEvent) (tid : Nat) (ty : String) :
    countType (l1 ++ l2) tid ty = countType l1 tid ty + countType l2 tid ty := by
  simp [countType, List.filter_append]

/-- A ledger with no event of the tool counts 0. -/
theorem countType_fresh (l : List MEvent) (tid : Nat) (ty : String)
    (h : ∀ e ∈ l, e.tool_id ≠ tid) : countType l tid ty = 0 := by
  unfold countType
  rw [List.filter_eq_nil_iff.mpr]
  · rfl
  · intro e he
    simp only [Bool.and_eq_true, beq_iff_eq, Bool.not_eq_eq_eq_not,
      Bool.not_true, not_and]
    intro hc
    exact absurd hc.1 (h e he)

/-- `countType` of a single event. -/
theorem countType_singleton (e : MEvent) (tid : Nat) (ty : String) :
    countType [e] tid ty =
      if e.tool_id = tid ∧ e.event_type = ty ∧ e.is_deleted = false then 1
      else 0 := by
  by_cases hc : e.tool_id = tid ∧ e.event_type = ty ∧ e.is_deleted = false
  · rw [if_pos hc]
    unfold countType
    rw [List.filter_cons_of_pos]
    · rfl
    · simp [hc.1, hc.2.1, hc.2.2]
  · rw [if_neg hc]
    unfold countType
    rw [List.filter_cons_of_neg]
    · rfl
    · simp only [Bool.and_eq_true, beq_iff_eq, Bool.not_eq_eq_eq_not,
        Bool.not_true]
      intro hcon
      exact hc ⟨hcon.1.1, hcon.1.2, hcon.2⟩

/-- Removing the (unique) event carrying a history id splits the count. -/
theorem countType_remove (h : Nat) (tid : Nat) (ty : String) :
    ∀ (l : List MEvent) (record : MEvent),
      l.Pairwise (fun a c => a.history_id ≠ c.history_id) →
      l.find? (fun e => e.history_id == h) = some record →
      countType l tid ty =
        countType (l.filter (fun e => !(e.history_id == h))) tid ty +
        (if record.tool_id = tid ∧ record.event_type = ty ∧
            record.is_deleted = false then 1 else 0) := by
  intro l
  induction l with
  | nil => intro record _ hf; exact Option.noConfusion hf
  | cons a as ih =>
    intro record hp hf
    rcases List.pairwise_cons.mp hp with ⟨ha, has⟩
    by_cases hah : (a.history_id == h) = true
    · have hfc : (a :: as).find? (fun e => e.history_id == h) = some a :=
        List.find?_cons_of_pos as hah
      rw [hfc] at hf
      cases hf
      have hasfix : as.filter (fun e => !(e.history_id == h)) = as := by
        rw [List.filter_eq_self]
        intro x hx
        have hne : a.history_id ≠ x.history_id := ha x hx
        have hah' : a.history_id = h := by simpa using hah
        have : x.history_id ≠ h := by
          intro hxh
          exact hne (by rw [hxh, hah'])
        simp [this]
      have hAfilter : (a :: as).filter (fun e => !(e.history_id == h)) = as := by
        rw [List.filter_cons_of_neg]
        · exact hasfix
        · simp [hah]
      rw [hAfilter]
      have : countType (a :: as) tid ty =
          countType [a] tid ty + countType as tid ty := by
        have := countType_append [a] as tid ty
        simpa using this
      rw [this, countType_singleton]
      omega
    · have hfc : (a :: as).find? (fun e => e.history_id == h) =
          as.find? (fun e => e.history_id == h) :=
        List.find?_cons_of_neg as hah
      rw [hfc] at hf
      have hAfilter : (a :: as).filter (fun e => !(e.history_id == h)) =
          a :: as.filter (fun e => !(e.history_id == h)) := by
        rw [List.filter_cons_of_pos]
        simp [hah]
      rw [hAfilter]
      have hsplit1 : countType (a :: as) tid ty =
          countType [a] tid ty + countType as tid ty := by
        have := countType_append [a] as tid ty
        simpa using this
      have hsplit2 : countType (a :: as.filter (fun e => !(e.history_id == h)))
          tid ty = countType [a] tid ty +
          countType (as.filter (fun e => !(e.history_id == h))) tid ty := by
        have := countType_append [a]
          (as.filter (fun e => !(e.history_id == h))) tid ty
        simpa using this
      rw [hsplit1, hsplit2, ih record has hf]
      omega

/-- `sumLife` splits over appends. -/
theorem sumLife_append (l1 l2 : List MEvent) (tid : Nat) :
    sumLife (l1 ++ l2) tid = sumLife l1 tid + sumLife l2 tid := by
  simp [sumLife, List.filter_append]

/-- A ledger with no event of the tool sums to 0. -/
theorem sumLife_fresh (l : List MEvent) (tid : Nat)
    (h : ∀ e ∈ l, e.tool_id ≠ tid) : sumLife l tid = 0 := by
  unfold sumLife
  rw [List.filter_eq_nil_iff.mpr]
  · rfl
  · intro e he
    unfold isLiveEventOf
    simp only [Bool.and_eq_true, beq_iff_eq, not_and]
    intro hc
    exact absurd hc (h e he)

/-- `sumLife` of a single live event of the tool. -/
theorem sumLife_singleton_match (e : MEvent) (tid : Nat)
    (h1 : e.tool_id = tid) (h2 : e.is_deleted = false) :
    sumLife [e] tid = e.life_consumed := by
  unfold sumLife
  rw [List.filter_cons_of_pos]
  · simp
  · unfold isLiveEventOf
    simp [h1, h2]

/-- A ledger with no live event of the tool has prior life 0 — fresh-tool
form. -/
theorem lastLife_fresh (l : List MEvent) (tid : Nat)
    (h : ∀ e ∈ l, e.tool_id ≠ tid) : lastLifeAtEvent l tid = 0 := by
  apply lastLife_of_empty
  intro x hx
  exact fun hc => absurd hc.1 (h x hx)

/-- Appending a live event of the tool whose recorded life dominates the
previous maximum moves the prior life to that event's recorded life. -/
theorem lastLife_append_last (l : List MEvent) (tid : Nat) (e : MEvent)
    (he1 : e.tool_id = tid) (he2 : e.is_deleted = false)
    (hge : lastLifeAtEvent l tid ≤ e.tool_life_at_event) :
    lastLifeAtEvent (l ++ [e]) tid = e.tool_life_at_event := by
  unfold lastLifeAtEvent at hge ⊢
  rw [List.filter_append]
  have he : [e].filter (isLiveEventOf tid) = [e] := by
    rw [List.filter_eq_self]
    intro x hx
    rcases List.mem_singleton.mp hx with rfl
    unfold isLiveEventOf
    simp [he1, he2]
  rw [he, List.map_append]
  simp only [List.map_cons, List.map_nil]
  rw [maxOption_append_singleton]
  cases hm : maxOption ((l.filter (isLiveEventOf tid)).map
      (fun x => x.tool_life_at_event)) with
  | none => simp
  | some m =>
    rw [hm] at hge
    simp only [Option.getD_some] at hge ⊢
    exact max_eq_right hge

/-- Appending an event of another tool does not change the prior life. -/
theorem lastLife_append_other (l : List MEvent) (tid : Nat) (e : MEvent)
    (he : e.tool_id ≠ tid) :
    lastLifeAtEvent (l ++ [e]) tid = lastLifeAtEvent l tid := by
  unfold lastLifeAtEvent
  rw [List.filter_append]
  have hdrop : [e].filter (isLiveEventOf tid) = [] := by
    rw [List.filter_eq_nil_iff]
    intro x hx
    rcases List.mem_singleton.mp hx with rfl
    unfold isLiveEventOf
    simp [he]
  rw [hdrop, List.append_nil]

/-- Characterisation of the lifecycle replay loop: it appends fresh
non-deleted events of the imported tool, with consecutive distinct
history ids starting at the loop's next id, skipping "initial"
pseudo-events and preserving the count of every other event type. -/
theorem replay_events_spec (toolId : Nat) (now : Int) :
    ∀ (evs : List LifecycleEventIn) (st : ReplayState),
      ∃ newEvents : List MEvent,
        (evs.foldl (replayStep toolId now) st).events =
          st.events ++ newEvents ∧
        (evs.foldl (replayStep toolId now) st).nextHist =
          st.nextHist + newEvents.length ∧
        (∀ m ∈ newEvents, m.tool_id = toolId ∧ m.is_deleted = false ∧
          st.nextHist ≤ m.history_id ∧
          m.history_id < st.nextHist + newEvents.length ∧
          ∃ ev ∈ evs, ev.event_type = m.event_type ∧
            ev.event_type ≠ "initial") ∧
        newEvents.Pairwise (fun a c => a.history_id ≠ c.history_id) ∧
        (∀ ty : String, ty ≠ "initial" →
          (newEvents.filter (fun m => m.event_type == ty)).length =
          (evs.filter (fun e => e.event_type == ty)).length) := by
  intro evs
  induction evs with
  | nil =>
    intro st
    refine ⟨[], by simp, by simp, ?_, List.Pairwise.nil, by simp⟩
    intro m hm
    exact absurd hm (List.not_mem_nil m)
  | cons ev evs ih =>
    intro st
    rw [List.foldl_cons]
    by_cases hini : ev.event_type = "initial"
    · have hstep : replayStep toolId now st ev = st := by
        unfold replayStep
        rw [if_pos hini]
      rw [hstep]
      rcases ih st with ⟨ne, h1, h2, h3, h4, h5⟩
      refine ⟨ne, h1, h2, ?_, h4, ?_⟩
      · intro m hm
        rcases h3 m hm with ⟨a1, a2, a3, a4, ev', hev', a5, a6⟩
        exact ⟨a1, a2, a3, a4, ev', List.mem_cons_of_mem ev hev', a5, a6⟩
      · intro ty hty
        rw [List.filter_cons_of_neg]
        · exact h5 ty hty
        · intro hc
          have hc' : ev.event_type = ty := by simpa using hc
          exact hty (hc' ▸ hini)
    · have hstep1 : (replayStep toolId now st ev).events =
          st.events ++ [replayEventOf toolId now st ev] := by
        unfold replayStep
        rw [if_neg hini]
      have hstep2 : (replayStep toolId now st ev).nextHist =
          st.nextHist + 1 := by
        unfold replayStep
        rw [if_neg hini]
      rcases ih (replayStep toolId now st ev) with ⟨ne, h1, h2, h3, h4, h5⟩
      refine ⟨replayEventOf toolId now st ev :: ne, ?_, ?_, ?_, ?_, ?_⟩
      · rw [h1, hstep1, List.append_assoc, List.singleton_append]
      · rw [h2, hstep2, List.length_cons]
        omega
      · intro m hm
        rcases List.mem_cons.mp hm with rfl | hmne
        · refine ⟨rfl, rfl, le_refl _, ?_, ev, List.mem_cons_self ev evs,
            rfl, hini⟩
          show st.nextHist < st.nextHist + (ne.length + 1)
          omega
        · rcases h3 m hmne with ⟨a1, a2, a3, a4, ev', hev', a5, a6⟩
          rw [hstep2] at a3 a4
          refine ⟨a1, a2, by omega, ?_, ev', List.mem_cons_of_mem ev hev',
            a5, a6⟩
          rw [List.length_cons]
          omega
      · rw [List.pairwise_cons]
        refine ⟨?_, h4⟩
        intro c hc
        rcases h3 c hc with ⟨_, _, a3, _, _⟩
        rw [hstep2] at a3
        show st.nextHist ≠ c.history_id
        omega
      · intro ty hty
        by_cases hc : (ev.event_type == ty) = true
        · rw [List.filter_cons_of_pos, List.filter_cons_of_pos]
          · rw [List.length_cons, List.length_cons, h5 ty hty]
          · exact hc
          · exact hc
        · rw [List.filter_cons_of_neg, List.filter_cons_of_neg]
          · exact h5 ty hty
          · exact hc
          · exact hc

/-- Validity of the request inputs of an operation: tool creation
supplies no seed counters (the JS `numberOf... || 0` evaluates to 0) and
imported lifecycle events use only the three known event types. -/
def OpValid : Op → Prop
  | .create _ b => jsOr b.number_of_regrinding 0 = 0 ∧
      jsOr b.number_of_resegmentation 0 = 0
  | .importTools _ ts _ => ∀ i ∈ ts,
      match i.lifecycle_events with
      | none => True
      | some evs => ∀ ev ∈ evs, ev.event_type = "initial" ∨
          ev.event_type = "regrinding" ∨ ev.event_type = "resegmentation"
  | .update _ _ _ _ => True
  | .reverse _ => True

/-- Operations of the live path: creation (with no seed counters) and
updates whose consumed amount is non-negative; historical import and
ledger reversal are excluded. -/
def LiveOp : Op → Prop
  | .create _ _ => True
  | .update _ _ b _ => 0 ≤ jsOr b.life_consumed 0
  | .importTools _ _ _ => False
  | .reverse _ => False

/-- The inductive state invariant backing the counter half of C1:
fresh distinct ids everywhere, a live well-typed ledger, and counters
equal to the per-type counts of the tool's non-deleted ledger events. -/
structure CounterInv (db : DB) : Prop where
  tool_lt : ∀ t ∈ db.inventory, t.tool_id < db.next_tool_id
  inv_lt : ∀ t ∈ db.inventory, t.inventory_id < db.next_inventory_id
  tool_distinct : db.inventory.Pairwise (fun a c => a.tool_id ≠ c.tool_id)
  inv_distinct : db.inventory.Pairwise
    (fun a c => a.inventory_id ≠ c.inventory_id)
  ev_tool_lt : ∀ e ∈ db.ledger, e.tool_id < db.next_tool_id
  ev_hist_lt : ∀ e ∈ db.ledger, e.history_id < db.next_history_id
  ev_hist_distinct : db.ledger.Pairwise
    (fun a c => a.history_id ≠ c.history_id)
  ev_live : ∀ e ∈ db.ledger, e.is_deleted = false
  ev_type_ok : ∀ e ∈ db.ledger, e.event_type = "regrinding" ∨
    e.event_type = "resegmentation"
  regrind_eq : ∀ t ∈ db.inventory, t.number_of_regrinding =
    (countType db.ledger t.tool_id "regrinding" : Int)
  reseg_eq : ∀ t ∈ db.inventory, t.number_of_resegmentation =
    (countType db.ledger t.tool_id "resegmentation" : Int)

/-- The empty database satisfies the counter invariant. -/
theorem counterInv_init (fs : List Int) : CounterInv (initDB fs) := by
  constructor <;> simp [initDB]

/-- `createInventoryTool` (with no seed counters) preserves the counter
invariant. -/
theorem counterInv_create (u : User) (b : CreateBody) (db : DB)
    (hb : jsOr b.number_of_regrinding 0 = 0 ∧
      jsOr b.number_of_resegmentation 0 = 0)
    (hI : CounterInv db) : CounterInv (createInventoryTool u b db).1 := by
  unfold createInventoryTool
  cases hv : validateToolInput u db b.material_id b.batch_id b.tool_name
      b.type b.current_factory_id with
  | error m =>
    simp only [hv]
    exact hI
  | ok fid =>
    simp only [hv]
    have hfreshCount : ∀ ty, countType db.ledger db.next_tool_id ty = 0 := by
      intro ty
      apply countType_fresh
      intro e he
      exact Nat.ne_of_lt (hI.ev_tool_lt e he)
    constructor
    · intro t ht
      rcases List.mem_append.mp ht with hold | hnew
      · exact Nat.lt_succ_of_lt (hI.tool_lt t hold)
      · rcases List.mem_singleton.mp hnew with rfl
        exact Nat.lt_succ_self _
    · intro t ht
      rcases List.mem_append.mp ht with hold | hnew
      · exact Nat.lt_succ_of_lt (hI.inv_lt t hold)
      · rcases List.mem_singleton.mp hnew with rfl
        exact Nat.lt_succ_self _
    · rw [List.pairwise_append]
      refine ⟨hI.tool_distinct, List.pairwise_singleton _ _, ?_⟩
      intro a ha c hc
      rcases List.mem_singleton.mp hc with rfl
      exact Nat.ne_of_lt (hI.tool_lt a ha)
    · rw [List.pairwise_append]
      refine ⟨hI.inv_distinct, List.pairwise_singleton _ _, ?_⟩
      intro a ha c hc
      rcases List.mem_singleton.mp hc with rfl
      exact Nat.ne_of_lt (hI.inv_lt a ha)
    · intro e he
      exact Nat.lt_succ_of_lt (hI.ev_tool_lt e he)
    · exact hI.ev_hist_lt
    · exact hI.ev_hist_distinct
    · exact hI.ev_live
    · exact hI.ev_type_ok
    · intro t ht
      rcases List.mem_append.mp ht with hold | hnew
      · exact hI.regrind_eq t hold
      · rcases List.mem_singleton.mp hnew with rfl
        show jsOr b.number_of_regrinding 0 = _
        rw [hb.1, hfreshCount "regrinding"]
        rfl
    · intro t ht
      rcases List.mem_append.mp ht with hold | hnew
      · exact hI.reseg_eq t hold
      · rcases List.mem_singleton.mp hnew with rfl
        show jsOr b.number_of_resegmentation 0 = _
        rw [hb.2, hfreshCount "resegmentation"]
        rfl

/-- `deleteMaintenanceHistory` preserves the counter invariant. -/
theorem counterInv_reverse (h : Nat) (db : DB) (hI : CounterInv db) :
    CounterInv (deleteMaintenanceHistory h db).1 := by
  unfold deleteMaintenanceHistory
  cases hf : db.ledger.find? (fun e => e.history_id == h) with
  | none =>
    simp only [hf]
    exact hI
  | some record =>
    simp only [hf]
    cases hg : db.inventory.find? (fun t => t.tool_id == record.tool_id) with
    | none =>
      simp only [hg]
      exact hI
    | some currentData =>
      simp only [hg]
      have hrecmem : record ∈ db.ledger := List.mem_of_find?_eq_some hf
      have hreclive : record.is_deleted = false := hI.ev_live record hrecmem
      have hcdmem : currentData ∈ db.inventory := List.mem_of_find?_eq_some hg
      have hcdtool : currentData.tool_id = record.tool_id := by
        have := List.find?_some hg
        simpa using this
      have hkeyT : ∀ x : Tool,
          (if (x.tool_id == record.tool_id) = true then
            delApply record currentData x else x).tool_id = x.tool_id := by
        intro x
        by_cases hxt : (x.tool_id == record.tool_id) = true
        · rw [if_pos hxt]
          exact (delApply_frame _ _ _).2.1
        · rw [if_neg hxt]
      have hkeyI : ∀ x : Tool,
          (if (x.tool_id == record.tool_id) = true then
            delApply record currentData x else x).inventory_id =
          x.inventory_id := by
        intro x
        by_cases hxt : (x.tool_id == record.tool_id) = true
        · rw [if_pos hxt]
          exact (delApply_frame _ _ _).1
        · rw [if_neg hxt]
      have hmemfil : ∀ e, e ∈ db.ledger.filter
          (fun e => !(e.history_id == h)) → e ∈ db.ledger :=
        fun e he => (List.mem_filter.mp he).1
      constructor
      · intro t' ht'
        rcases List.mem_map.mp ht' with ⟨x, hx, rfl⟩
        rw [hkeyT x]
        exact hI.tool_lt x hx
      · intro t' ht'
        rcases List.mem_map.mp ht' with ⟨x, hx, rfl⟩
        rw [hkeyI x]
        exact hI.inv_lt x hx
      · rw [List.pairwise_map]
        refine hI.tool_distinct.imp_of_mem ?_
        intro a c _ _ hne
        rw [hkeyT a, hkeyT c]
        exact hne
      · rw [List.pairwise_map]
        refine hI.inv_distinct.imp_of_mem ?_
        intro a c _ _ hne
        rw [hkeyI a, hkeyI c]
        exact hne
      · intro e he
        exact hI.ev_tool_lt e (hmemfil e he)
      · intro e he
        exact hI.ev_hist_lt e (hmemfil e he)
      · exact hI.ev_hist_distinct.sublist (List.filter_sublist _)
      · intro e he
        exact hI.ev_live e (hmemfil e he)
      · intro e he
        exact hI.ev_type_ok e (hmemfil e he)
      · -- regrinding counters
        intro t' ht'
        rcases List.mem_map.mp ht' with ⟨x, hx, rfl⟩
        rw [hkeyT x]
        dsimp only
        have hcount := countType_remove h x.tool_id "regrinding" db.ledger
          record hI.ev_hist_distinct hf
        by_cases hxt : (x.tool_id == record.tool_id) = true
        · have hxrec : x.tool_id = record.tool_id := by simpa using hxt
          have hxc : x = currentData :=
            eq_of_pairwise_key (fun r => r.tool_id) db.inventory
              hI.tool_distinct x hx currentData hcdmem
              (by show x.tool_id = currentData.tool_id
                  rw [hxrec, hcdtool])
          rw [if_pos hxt]
          rcases hI.ev_type_ok record hrecmem with hty | hty
          · have hda := delApply_counters_reg record currentData x hty
            rw [hda.1, hI.regrind_eq x hx]
            rw [if_pos ⟨hxrec.symm, hty, hreclive⟩] at hcount
            omega
          · have hda := delApply_counters_reseg record currentData x hty
            rw [hda.2, hI.regrind_eq x hx]
            have hne2 : ¬(record.tool_id = x.tool_id ∧
                record.event_type = "regrinding" ∧
                record.is_deleted = false) := by
              rintro ⟨-, hcon, -⟩
              rw [hty] at hcon
              exact absurd hcon (by decide)
            rw [if_neg hne2] at hcount
            omega
        · rw [if_neg hxt, hI.regrind_eq x hx]
          have hxrec : ¬x.tool_id = record.tool_id := by simpa using hxt
          rw [if_neg (fun hc => hxrec hc.1.symm)] at hcount
          omega
      · -- resegmentation counters
        intro t' ht'
        rcases List.mem_map.mp ht' with ⟨x, hx, rfl⟩
        rw [hkeyT x]
        dsimp only
        have hcount := countType_remove h x.tool_id "resegmentation" db.ledger
          record hI.ev_hist_distinct hf
        by_cases hxt : (x.tool_id == record.tool_id) = true
        · have hxrec : x.tool_id = record.tool_id := by simpa using hxt
          have hxc : x = currentData :=
            eq_of_pairwise_key (fun r => r.tool_id) db.inventory
              hI.tool_distinct x hx currentData hcdmem
              (by show x.tool_id = currentData.tool_id
                  rw [hxrec, hcdtool])
          rw [if_pos hxt]
          rcases hI.ev_type_ok record hrecmem with hty | hty
          · have hda := delApply_counters_reg record currentData x hty
            rw [hda.2, hI.reseg_eq x hx]
            have hne2 : ¬(record.tool_id = x.tool_id ∧
                record.event_type = "resegmentation" ∧
                record.is_deleted = false) := by
              rintro ⟨-, hcon, -⟩
              rw [hty] at hcon
              exact absurd hcon (by decide)
            rw [if_neg hne2] at hcount
            omega
          · have hda := delApply_counters_reseg record currentData x hty
            rw [hda.1, hI.reseg_eq x hx]
            rw [if_pos ⟨hxrec.symm, hty, hreclive⟩] at hcount
            omega
        · rw [if_neg hxt, hI.reseg_eq x hx]
          have hxrec : ¬x.tool_id = record.tool_id := by simpa using hxt
          rw [if_neg (fun hc => hxrec hc.1.symm)] at hcount
          omega

/-- `updateInventoryTool` preserves the counter invariant. -/
theorem counterInv_update (u : User) (iid : Nat) (b : UpdateBody)
    (now : Int) (db : DB) (hI : CounterInv db) :
    CounterInv (updateInventoryTool u iid b now db).1 := by
  cases hfind : db.inventory.find? (fun x => x.inventory_id == iid) with
  | none =>
    unfold updateInventoryTool
    simp only [hfind]
    exact hI
  | some t =>
    by_cases hauth : u.role = "UnitAdmin" ∧ u.factory_id ≠ t.current_factory_id
    · unfold updateInventoryTool
      simp only [hfind]
      rw [if_pos hauth]
      exact hI
    · have htmem : t ∈ db.inventory := List.mem_of_find?_eq_some hfind
      have htid : t.inventory_id = iid := by
        have := List.find?_some hfind
        simpa using this
      have hrow : ∀ x ∈ db.inventory, (x.inventory_id == iid) = true →
          x = t := by
        intro x hx hxe
        refine eq_of_pairwise_key (fun r => r.inventory_id) db.inventory
          hI.inv_distinct x hx t htmem ?_
        show x.inventory_id = t.inventory_id
        rw [htid]
        simpa using hxe
      have hxt_ne : ∀ x ∈ db.inventory, ¬((x.inventory_id == iid) = true) →
          x.tool_id ≠ t.tool_id := by
        intro x hx hxe hc
        have hxeq : x = t := eq_of_pairwise_key (fun r => r.tool_id)
          db.inventory hI.tool_distinct x hx t htmem hc
        rw [hxeq, htid] at hxe
        simp at hxe
      by_cases hch : hasChanges (computeFields t b) = false
      · rw [updateInventoryTool_nochange_eq u iid b now db t hfind hauth hch]
        exact hI
      · have hch' : hasChanges (computeFields t b) = true := by
          revert hch
          cases hasChanges (computeFields t b) <;> simp
        have hkeyT : ∀ x ∈ db.inventory,
            (if (x.inventory_id == iid) = true then
              applyFields t (computeFields t b) else x).tool_id =
            x.tool_id := by
          intro x hx
          by_cases hxe : (x.inventory_id == iid) = true
          · rw [if_pos hxe, hrow x hx hxe]
            rfl
          · rw [if_neg hxe]
        have hkeyI : ∀ x ∈ db.inventory,
            (if (x.inventory_id == iid) = true then
              applyFields t (computeFields t b) else x).inventory_id =
            x.inventory_id := by
          intro x hx
          by_cases hxe : (x.inventory_id == iid) = true
          · rw [if_pos hxe, hrow x hx hxe]
            rfl
          · rw [if_neg hxe]
        cases hmt : maintenanceType t b with
        | none =>
          rw [updateInventoryTool_plain_eq u iid b now db t hfind hauth hmt
            hch']
          have hfr := applyFields_nonmaint_frame t b hmt
          constructor
          · intro t' ht'
            rcases List.mem_map.mp ht' with ⟨x, hx, rfl⟩
            rw [hkeyT x hx]
            exact hI.tool_lt x hx
          · intro t' ht'
            rcases List.mem_map.mp ht' with ⟨x, hx, rfl⟩
            rw [hkeyI x hx]
            exact hI.inv_lt x hx
          · rw [List.pairwise_map]
            refine hI.tool_distinct.imp_of_mem ?_
            intro a c ha hc hne
            rw [hkeyT a ha, hkeyT c hc]
            exact hne
          · rw [List.pairwise_map]
            refine hI.inv_distinct.imp_of_mem ?_
            intro a c ha hc hne
            rw [hkeyI a ha, hkeyI c hc]
            exact hne
          · exact hI.ev_tool_lt
          · exact hI.ev_hist_lt
          · exact hI.ev_hist_distinct
          · exact hI.ev_live
          · exact hI.ev_type_ok
          · intro t' ht'
            rcases List.mem_map.mp ht' with ⟨x, hx, rfl⟩
            rw [hkeyT x hx]
            by_cases hxe : (x.inventory_id == iid) = true
            · rw [if_pos hxe, hrow x hx hxe, hfr.1]
              have := hI.regrind_eq x hx
              rw [hrow x hx hxe] at this
              exact this
            · rw [if_neg hxe]
              exact hI.regrind_eq x hx
          · intro t' ht'
            rcases List.mem_map.mp ht' with ⟨x, hx, rfl⟩
            rw [hkeyT x hx]
            by_cases hxe : (x.inventory_id == iid) = true
            · rw [if_pos hxe, hrow x hx hxe, hfr.2.1]
              have := hI.reseg_eq x hx
              rw [hrow x hx hxe] at this
              exact this
            · rw [if_neg hxe]
              exact hI.reseg_eq x hx
        | some ety =>
          rw [updateInventoryTool_maint_eq u iid b now db t ety hfind hauth
            hmt]
          have hetool : (newMaintEvent db t b ety now).tool_id = t.tool_id :=
            rfl
          have hehist : (newMaintEvent db t b ety now).history_id =
            db.next_history_id := rfl
          have helive : (newMaintEvent db t b ety now).is_deleted = false :=
            rfl
          have hetyp : (newMaintEvent db t b ety now).event_type = ety := rfl
          have hety2 : ety = "regrinding" ∨ ety = "resegmentation" := by
            rcases maintenanceType_spec t b ety hmt with ⟨h1, _, _⟩ | ⟨h1, _, _⟩
            · exact Or.inl h1
            · exact Or.inr h1
          constructor
          · intro t' ht'
            rcases List.mem_map.mp ht' with ⟨x, hx, rfl⟩
            rw [hkeyT x hx]
            exact hI.tool_lt x hx
          · intro t' ht'
            rcases List.mem_map.mp ht' with ⟨x, hx, rfl⟩
            rw [hkeyI x hx]
            exact hI.inv_lt x hx
          · rw [List.pairwise_map]
            refine hI.tool_distinct.imp_of_mem ?_
            intro a c ha hc hne
            rw [hkeyT a ha, hkeyT c hc]
            exact hne
          · rw [List.pairwise_map]
            refine hI.inv_distinct.imp_of_mem ?_
            intro a c ha hc hne
            rw [hkeyI a ha, hkeyI c hc]
            exact hne
          · intro e he
            rcases List.mem_append.mp he with hold | hnew
            · exact hI.ev_tool_lt e hold
            · rcases List.mem_singleton.mp hnew with rfl
              rw [hetool]
              exact hI.tool_lt t htmem
          · intro e he
            rcases List.mem_append.mp he with hold | hnew
            · exact Nat.lt_succ_of_lt (hI.ev_hist_lt e hold)
            · rcases List.mem_singleton.mp hnew with rfl
              rw [hehist]
              exact Nat.lt_succ_self _
          · rw [List.pairwise_append]
            refine ⟨hI.ev_hist_distinct, List.pairwise_singleton _ _, ?_⟩
            intro a ha c hc
            rcases List.mem_singleton.mp hc with rfl
            rw [hehist]
            exact Nat.ne_of_lt (hI.ev_hist_lt a ha)
          · intro e he
            rcases List.mem_append.mp he with hold | hnew
            · exact hI.ev_live e hold
            · rcases List.mem_singleton.mp hnew with rfl
              exact helive
          · intro e he
            rcases List.mem_append.mp he with hold | hnew
            · exact hI.ev_type_ok e hold
            · rcases List.mem_singleton.mp hnew with rfl
              rw [hetyp]
              exact hety2
          · intro t' ht'
            rcases List.mem_map.mp ht' with ⟨x, hx, rfl⟩
            rw [hkeyT x hx, countType_append, countType_singleton]
            by_cases hxe : (x.inventory_id == iid) = true
            · rw [if_pos hxe, hrow x hx hxe]
              have hbase := hI.regrind_eq t htmem
              rcases hety2 with hre | hre
              · rw [(applyFields_maint_regrind t b (hre ▸ hmt)).1, hbase]
                rw [if_pos ⟨hetool, hre ▸ hetyp, helive⟩]
                push_cast
                omega
              · rw [(applyFields_maint_reseg t b (hre ▸ hmt)).2, hbase]
                have hne2 : ¬((newMaintEvent db t b ety now).tool_id =
                    t.tool_id ∧ (newMaintEvent db t b ety now).event_type =
                    "regrinding" ∧ (newMaintEvent db t b ety now).is_deleted =
                    false) := by
                  rintro ⟨-, hcon, -⟩
                  rw [hetyp, hre] at hcon
                  exact absurd hcon (by decide)
                rw [if_neg hne2]
                push_cast
                omega
            · rw [if_neg hxe]
              have hxne := hxt_ne x hx hxe
              have hne2 : ¬((newMaintEvent db t b ety now).tool_id =
                  x.tool_id ∧ (newMaintEvent db t b ety now).event_type =
                  "regrinding" ∧ (newMaintEvent db t b ety now).is_deleted =
                  false) := by
                rintro ⟨hcon, -, -⟩
                rw [hetool] at hcon
                exact hxne hcon.symm
              rw [if_neg hne2, hI.regrind_eq x hx]
              push_cast
              omega
          · intro t' ht'
            rcases List.mem_map.mp ht' with ⟨x, hx, rfl⟩
            rw [hkeyT x hx, countType_append, countType_singleton]
            by_cases hxe : (x.inventory_id == iid) = true
            · rw [if_pos hxe, hrow x hx hxe]
              have hbase := hI.reseg_eq t htmem
              rcases hety2 with hre | hre
              · rw [(applyFields_maint_regrind t b (hre ▸ hmt)).2, hbase]
                have hne2 : ¬((newMaintEvent db t b ety now).tool_id =
                    t.tool_id ∧ (newMaintEvent db t b ety now).event_type =
                    "resegmentation" ∧
                    (newMaintEvent db t b ety now).is_deleted = false) := by
                  rintro ⟨-, hcon, -⟩
                  rw [hetyp, hre] at hcon
                  exact absurd hcon (by decide)
                rw [if_neg hne2]
                push_cast
                omega
              · rw [(applyFields_maint_reseg t b (hre ▸ hmt)).1, hbase]
                rw [if_pos ⟨hetool, hre ▸ hetyp, helive⟩]
                push_cast
                omega
            · rw [if_neg hxe]
              have hxne := hxt_ne x hx hxe
              have hne2 : ¬((newMaintEvent db t b ety now).tool_id =
                  x.tool_id ∧ (newMaintEvent db t b ety now).event_type =
                  "resegmentation" ∧ (newMaintEvent db t b ety now).is_deleted =
                  false) := by
                rintro ⟨hcon, -, -⟩
                rw [hetool] at hcon
                exact hxne hcon.symm
              rw [if_neg hne2, hI.reseg_eq x hx]
              push_cast
              omega

/-- A single import item with well-typed lifecycle events preserves the
counter invariant. -/
theorem counterInv_processItem (u : User) (now : Int) (db : DB)
    (i : ToolImportIn)
    (hval : ∀ ev ∈ i.lifecycle_events.getD [],
      ev.event_type = "initial" ∨ ev.event_type = "regrinding" ∨
      ev.event_type = "resegmentation")
    (hI : CounterInv db) : CounterInv (processImportItem u now db i).1 := by
  unfold processImportItem
  cases hv : validateToolInput u db i.material_id i.batch_id i.tool_name
      i.type i.current_factory_id with
  | error m =>
    simp only [hv]
    exact hI
  | ok fid =>
    simp only [hv]
    rcases replay_events_spec db.next_tool_id now
      (i.lifecycle_events.getD []) ⟨[], db.rollups, db.next_history_id, 0, 0⟩
      with ⟨ne, h1, h2, h3, h4, h5⟩
    have h3' : ∀ m ∈ ne, m.tool_id = db.next_tool_id ∧
        m.is_deleted = false ∧ db.next_history_id ≤ m.history_id ∧
        m.history_id < db.next_history_id + ne.length ∧
        ∃ ev ∈ i.lifecycle_events.getD [],
          ev.event_type = m.event_type ∧ ev.event_type ≠ "initial" := h3
    rw [h1, h2]
    dsimp only
    rw [List.nil_append]
    have hfreshOld : ∀ ty, countType db.ledger db.next_tool_id ty = 0 := by
      intro ty
      apply countType_fresh
      intro e he
      exact Nat.ne_of_lt (hI.ev_tool_lt e he)
    have hnewCnt : ∀ ty : String, ty ≠ "initial" →
        countType ne db.next_tool_id ty =
        ((i.lifecycle_events.getD []).filter
          (fun e => e.event_type == ty)).length := by
      intro ty hty
      rw [← h5 ty hty]
      unfold countType
      congr 1
      apply List.filter_congr
      intro m hm
      rcases h3' m hm with ⟨a1, a2, -⟩
      simp [a1, a2]
    have hregCnt :
        ((i.lifecycle_events.getD []).filter
          (fun e => e.event_type == "regrinding")).length =
        regrindCountOf i := by
      cases hle : i.lifecycle_events <;> simp [regrindCountOf, hle]
    have hresCnt :
        ((i.lifecycle_events.getD []).filter
          (fun e => e.event_type == "resegmentation")).length =
        resegCountOf i := by
      cases hle : i.lifecycle_events <;> simp [resegCountOf, hle]
    constructor
    · intro t ht
      rcases List.mem_append.mp ht with hold | hnew
      · exact Nat.lt_succ_of_lt (hI.tool_lt t hold)
      · rcases List.mem_singleton.mp hnew with rfl
        exact Nat.lt_succ_self _
    · intro t ht
      rcases List.mem_append.mp ht with hold | hnew
      · exact Nat.lt_succ_of_lt (hI.inv_lt t hold)
      · rcases List.mem_singleton.mp hnew with rfl
        exact Nat.lt_succ_self _
    · rw [List.pairwise_append]
      refine ⟨hI.tool_distinct, List.pairwise_singleton _ _, ?_⟩
      intro a ha c hc
      rcases List.mem_singleton.mp hc with rfl
      exact Nat.ne_of_lt (hI.tool_lt a ha)
    · rw [List.pairwise_append]
      refine ⟨hI.inv_distinct, List.pairwise_singleton _ _, ?_⟩
      intro a ha c hc
      rcases List.mem_singleton.mp hc with rfl
      exact Nat.ne_of_lt (hI.inv_lt a ha)
    · intro e he
      rcases List.mem_append.mp he with hold | hnew
      · exact Nat.lt_succ_of_lt (hI.ev_tool_lt e hold)
      · rw [(h3' e hnew).1]
        exact Nat.lt_succ_self _
    · intro e he
      rcases List.mem_append.mp he with hold | hnew
      · exact Nat.lt_of_lt_of_le (hI.ev_hist_lt e hold)
          (Nat.le_add_right _ _)
      · exact (h3' e hnew).2.2.2.1
    · rw [List.pairwise_append]
      refine ⟨hI.ev_hist_distinct, h4, ?_⟩
      intro a ha c hc
      have h1a := hI.ev_hist_lt a ha
      have h2c := (h3' c hc).2.2.1
      omega
    · intro e he
      rcases List.mem_append.mp he with hold | hnew
      · exact hI.ev_live e hold
      · exact (h3' e hnew).2.1
    · intro e he
      rcases List.mem_append.mp he with hold | hnew
      · exact hI.ev_type_ok e hold
      · rcases (h3' e hnew).2.2.2.2 with ⟨ev, hev, hevty, hevne⟩
        rcases hval ev hev with hk | hk | hk
        · exact absurd hk hevne
        · exact Or.inl (hevty ▸ hk)
        · exact Or.inr (hevty ▸ hk)
    · intro t ht
      rcases List.mem_append.mp ht with hold | hnew
      · have hz : countType ne t.tool_id "regrinding" = 0 := by
          apply countType_fresh
          intro m hm
          rw [(h3' m hm).1]
          exact (Nat.ne_of_lt (hI.tool_lt t hold)).symm
        rw [countType_append, hz, Nat.add_zero]
        exact hI.regrind_eq t hold
      · rcases List.mem_singleton.mp hnew with rfl
        show (regrindCountOf i : Int) = _
        rw [countType_append, hfreshOld, hnewCnt "regrinding" (by decide),
          hregCnt, Nat.zero_add]
    · intro t ht
      rcases List.mem_append.mp ht with hold | hnew
      · have hz : countType ne t.tool_id "resegmentation" = 0 := by
          apply countType_fresh
          intro m hm
          rw [(h3' m hm).1]
          exact (Nat.ne_of_lt (hI.tool_lt t hold)).symm
        rw [countType_append, hz, Nat.add_zero]
        exact hI.reseg_eq t hold
      · rcases List.mem_singleton.mp hnew with rfl
        show (resegCountOf i : Int) = _
        rw [countType_append, hfreshOld, hnewCnt "resegmentation" (by decide),
          hresCnt, Nat.zero_add]

/-- The whole import batch preserves the counter invariant when every
item's lifecycle events are well typed. -/
theorem counterInv_import (u : User) (ts : List ToolImportIn) (now : Int)
    (db : DB)
    (hval : ∀ i ∈ ts, ∀ ev ∈ i.lifecycle_events.getD [],
      ev.event_type = "initial" ∨ ev.event_type = "regrinding" ∨
      ev.event_type = "resegmentation")
    (hI : CounterInv db) :
    CounterInv (createHistoricalTools u ts now db).1 := by
  unfold createHistoricalTools
  suffices h : ∀ (ts : List ToolImportIn) (db0 : DB) (r0 : ImportResults),
      (∀ i ∈ ts, ∀ ev ∈ i.lifecycle_events.getD [],
        ev.event_type = "initial" ∨ ev.event_type = "regrinding" ∨
        ev.event_type = "resegmentation") →
      CounterInv db0 →
      CounterInv (ts.foldl (importLoop u now) (db0, r0)).1 by
    exact h ts db ⟨[], []⟩ hval hI
  intro ts
  induction ts with
  | nil =>
    intro db0 r0 _ hI0
    exact hI0
  | cons i rest ih =>
    intro db0 r0 hv0 hI0
    rw [List.foldl_cons]
    have hstep : (importLoop u now (db0, r0) i).1 =
        (processImportItem u now db0 i).1 := by
      unfold importLoop
      cases hp : processImportItem u now db0 i with
      | mk db1 out =>
        cases out <;> simp
    have hI1 : CounterInv (importLoop u now (db0, r0) i).1 := by
      rw [hstep]
      exact counterInv_processItem u now db0 i
        (hv0 i (List.mem_cons_self i rest)) hI0
    have hv1 : ∀ j ∈ rest, ∀ ev ∈ j.lifecycle_events.getD [],
        ev.event_type = "initial" ∨ ev.event_type = "regrinding" ∨
        ev.event_type = "resegmentation" :=
      fun j hj => hv0 j (List.mem_cons_of_mem i hj)
    have := ih (importLoop u now (db0, r0) i).1
      (importLoop u now (db0, r0) i).2 hv1 hI1
    simpa using this

/-- A single valid operation preserves the counter invariant. -/
theorem counterInv_step (db : DB) (op : Op) (hv : OpValid op)
    (hI : CounterInv db) : CounterInv (stepOp db op) := by
  cases op with
  | create u b => exact counterInv_create u b db hv hI
  | importTools u ts now =>
    refine counterInv_import u ts now db ?_ hI
    intro i hi ev hev
    have hm := hv i hi
    cases hle : i.lifecycle_events with
    | none =>
      rw [hle] at hev
      simp at hev
    | some evs =>
      simp only [hle] at hm
      rw [hle] at hev
      exact hm ev (by simpa using hev)
  | update u iid b now => exact counterInv_update u iid b now db hI
  | reverse h => exact counterInv_reverse h db hI

/-- The counter invariant holds in every state reachable by valid
operations from an initial database. -/
theorem counterInv_runOps (fs : List Int) (ops : List Op)
    (hv : ∀ op ∈ ops, OpValid op) : CounterInv (runOps (initDB fs) ops) := by
  unfold runOps
  suffices h : ∀ (ops : List Op) (db0 : DB), (∀ op ∈ ops, OpValid op) →
      CounterInv db0 → CounterInv (ops.foldl stepOp db0) by
    exact h ops (initDB fs) hv (counterInv_init fs)
  intro ops
  induction ops with
  | nil =>
    intro db0 _ hI0
    exact hI0
  | cons op rest ih =>
    intro db0 hv0 hI0
    rw [List.foldl_cons]
    exact ih (stepOp db0 op)
      (fun o ho => hv0 o (List.mem_cons_of_mem op ho))
      (counterInv_step db0 op (hv0 op (List.mem_cons_self op rest)) hI0)

/-- The inductive state invariant backing the life half of C1 along the
live path: cumulative life equals baseline plus the summed consumed
amounts of the tool's non-deleted ledger events, and the prior-life query
returns the current cumulative life. -/
structure LifeInv (db : DB) : Prop where
  tool_lt : ∀ t ∈ db.inventory, t.tool_id < db.next_tool_id
  inv_lt : ∀ t ∈ db.inventory, t.inventory_id < db.next_inventory_id
  tool_distinct : db.inventory.Pairwise (fun a c => a.tool_id ≠ c.tool_id)
  inv_distinct : db.inventory.Pairwise
    (fun a c => a.inventory_id ≠ c.inventory_id)
  ev_tool_lt : ∀ e ∈ db.ledger, e.tool_id < db.next_tool_id
  life_eq : ∀ t ∈ db.inventory, t.current_tool_life =
    t.baseline_tool_life + sumLife db.ledger t.tool_id
  last_eq : ∀ t ∈ db.inventory,
    lastLifeAtEvent db.ledger t.tool_id = t.current_tool_life

/-- The empty database satisfies the life invariant. -/
theorem lifeInv_init (fs : List Int) : LifeInv (initDB fs) := by
  constructor <;> simp [initDB]

/-- `createInventoryTool` preserves the life invariant. -/
theorem lifeInv_create (u : User) (b : CreateBody) (db : DB)
    (hI : LifeInv db) : LifeInv (createInventoryTool u b db).1 := by
  unfold createInventoryTool
  cases hv : validateToolInput u db b.material_id b.batch_id b.tool_name
      b.type b.current_factory_id with
  | error m =>
    simp only [hv]
    exact hI
  | ok fid =>
    simp only [hv]
    have hfreshSum : sumLife db.ledger db.next_tool_id = 0 :=
      sumLife_fresh _ _ (fun e he => Nat.ne_of_lt (hI.ev_tool_lt e he))
    have hfreshLast : lastLifeAtEvent db.ledger db.next_tool_id = 0 :=
      lastLife_fresh _ _ (fun e he => Nat.ne_of_lt (hI.ev_tool_lt e he))
    constructor
    · intro t ht
      rcases List.mem_append.mp ht with hold | hnew
      · exact Nat.lt_succ_of_lt (hI.tool_lt t hold)
      · rcases List.mem_singleton.mp hnew with rfl
        exact Nat.lt_succ_self _
    · intro t ht
      rcases List.mem_append.mp ht with hold | hnew
      · exact Nat.lt_succ_of_lt (hI.inv_lt t hold)
      · rcases List.mem_singleton.mp hnew with rfl
        exact Nat.lt_succ_self _
    · rw [List.pairwise_append]
      refine ⟨hI.tool_distinct, List.pairwise_singleton _ _, ?_⟩
      intro a ha c hc
      rcases List.mem_singleton.mp hc with rfl
      exact Nat.ne_of_lt (hI.tool_lt a ha)
    · rw [List.pairwise_append]
      refine ⟨hI.inv_distinct, List.pairwise_singleton _ _, ?_⟩
      intro a ha c hc
      rcases List.mem_singleton.mp hc with rfl
      exact Nat.ne_of_lt (hI.inv_lt a ha)
    · intro e he
      exact Nat.lt_succ_of_lt (hI.ev_tool_lt e he)
    · intro t ht
      rcases List.mem_append.mp ht with hold | hnew
      · exact hI.life_eq t hold
      · rcases List.mem_singleton.mp hnew with rfl
        show createdToolLife =
          createdToolLife + sumLife db.ledger db.next_tool_id
        rw [hfreshSum]
        ring
    · intro t ht
      rcases List.mem_append.mp ht with hold | hnew
      · exact hI.last_eq t hold
      · rcases List.mem_singleton.mp hnew with rfl
        show lastLifeAtEvent db.ledger db.next_tool_id = createdToolLife
        rw [hfreshLast]
        rfl

/-- `updateInventoryTool` with a non-negative consumed amount preserves
the life invariant. -/
theorem lifeInv_update (u : User) (iid : Nat) (b : UpdateBody) (now : Int)
    (db : DB) (hb : 0 ≤ jsOr b.life_consumed 0) (hI : LifeInv db) :
    LifeInv (updateInventoryTool u iid b now db).1 := by
  cases hfind : db.inventory.find? (fun x => x.inventory_id == iid) with
  | none =>
    unfold updateInventoryTool
    simp only [hfind]
    exact hI
  | some t =>
    by_cases hauth : u.role = "UnitAdmin" ∧ u.factory_id ≠ t.current_factory_id
    · unfold updateInventoryTool
      simp only [hfind]
      rw [if_pos hauth]
      exact hI
    · have htmem : t ∈ db.inventory := List.mem_of_find?_eq_some hfind
      have htid : t.inventory_id = iid := by
        have := List.find?_some hfind
        simpa using this
      have hrow : ∀ x ∈ db.inventory, (x.inventory_id == iid) = true →
          x = t := by
        intro x hx hxe
        refine eq_of_pairwise_key (fun r => r.inventory_id) db.inventory
          hI.inv_distinct x hx t htmem ?_
        show x.inventory_id = t.inventory_id
        rw [htid]
        simpa using hxe
      have hxt_ne : ∀ x ∈ db.inventory, ¬((x.inventory_id == iid) = true) →
          x.tool_id ≠ t.tool_id := by
        intro x hx hxe hc
        have hxeq : x = t := eq_of_pairwise_key (fun r => r.tool_id)
          db.inventory hI.tool_distinct x hx t htmem hc
        rw [hxeq, htid] at hxe
        simp at hxe
      by_cases hch : hasChanges (computeFields t b) = false
      · rw [updateInventoryTool_nochange_eq u iid b now db t hfind hauth hch]
        exact hI
      · have hch' : hasChanges (computeFields t b) = true := by
          revert hch
          cases hasChanges (computeFields t b) <;> simp
        have htoolid : (applyFields t (computeFields t b)).tool_id =
            t.tool_id := rfl
        have hbaseid : (applyFields t (computeFields t b)).baseline_tool_life =
            t.baseline_tool_life := rfl
        have hkeyT : ∀ x ∈ db.inventory,
            (if (x.inventory_id == iid) = true then
              applyFields t (computeFields t b) else x).tool_id =
            x.tool_id := by
          intro x hx
          by_cases hxe : (x.inventory_id == iid) = true
          · rw [if_pos hxe, hrow x hx hxe]
            rfl
          · rw [if_neg hxe]
        have hkeyI : ∀ x ∈ db.inventory,
            (if (x.inventory_id == iid) = true then
              applyFields t (computeFields t b) else x).inventory_id =
            x.inventory_id := by
          intro x hx
          by_cases hxe : (x.inventory_id == iid) = true
          · rw [if_pos hxe, hrow x hx hxe]
            rfl
          · rw [if_neg hxe]
        cases hmt : maintenanceType t b with
        | none =>
          rw [updateInventoryTool_plain_eq u iid b now db t hfind hauth hmt
            hch']
          have hfr := applyFields_nonmaint_frame t b hmt
          constructor
          · intro t' ht'
            rcases List.mem_map.mp ht' with ⟨x, hx, rfl⟩
            rw [hkeyT x hx]
            exact hI.tool_lt x hx
          · intro t' ht'
            rcases List.mem_map.mp ht' with ⟨x, hx, rfl⟩
            rw [hkeyI x hx]
            exact hI.inv_lt x hx
          · rw [List.pairwise_map]
            refine hI.tool_distinct.imp_of_mem ?_
            intro a c ha hc hne
            rw [hkeyT a ha, hkeyT c hc]
            exact hne
          · rw [List.pairwise_map]
            refine hI.inv_distinct.imp_of_mem ?_
            intro a c ha hc hne
            rw [hkeyI a ha, hkeyI c hc]
            exact hne
          · exact hI.ev_tool_lt
          · intro t' ht'
            rcases List.mem_map.mp ht' with ⟨x, hx, rfl⟩
            by_cases hxe : (x.inventory_id == iid) = true
            · rw [if_pos hxe, hfr.2.2.1, hbaseid, htoolid]
              exact hI.life_eq t htmem
            · rw [if_neg hxe]
              exact hI.life_eq x hx
          · intro t' ht'
            rcases List.mem_map.mp ht' with ⟨x, hx, rfl⟩
            by_cases hxe : (x.inventory_id == iid) = true
            · rw [if_pos hxe, hfr.2.2.1, htoolid]
              exact hI.last_eq t htmem
            · rw [if_neg hxe]
              exact hI.last_eq x hx
        | some ety =>
          rw [updateInventoryTool_maint_eq u iid b now db t ety hfind hauth
            hmt]
          have hetool : (newMaintEvent db t b ety now).tool_id = t.tool_id :=
            rfl
          have helive : (newMaintEvent db t b ety now).is_deleted = false :=
            rfl
          have hetl : (newMaintEvent db t b ety now).tool_life_at_event =
              t.current_tool_life + jsOr b.life_consumed 0 := by
            show (applyFields t (computeFields t b)).current_tool_life = _
            exact applyFields_maint_life t b ety hmt
          have hlc : (newMaintEvent db t b ety now).life_consumed =
              jsOr b.life_consumed 0 := by
            show (applyFields t (computeFields t b)).current_tool_life -
              lastLifeAtEvent db.ledger
                (applyFields t (computeFields t b)).tool_id = _
            rw [applyFields_maint_life t b ety hmt, htoolid,
              hI.last_eq t htmem]
            ring
          constructor
          · intro t' ht'
            rcases List.mem_map.mp ht' with ⟨x, hx, rfl⟩
            rw [hkeyT x hx]
            exact hI.tool_lt x hx
          · intro t' ht'
            rcases List.mem_map.mp ht' with ⟨x, hx, rfl⟩
            rw [hkeyI x hx]
            exact hI.inv_lt x hx
          · rw [List.pairwise_map]
            refine hI.tool_distinct.imp_of_mem ?_
            intro a c ha hc hne
            rw [hkeyT a ha, hkeyT c hc]
            exact hne
          · rw [List.pairwise_map]
            refine hI.inv_distinct.imp_of_mem ?_
            intro a c ha hc hne
            rw [hkeyI a ha, hkeyI c hc]
            exact hne
          · intro e he
            rcases List.mem_append.mp he with hold | hnew
            · exact hI.ev_tool_lt e hold
            · rcases List.mem_singleton.mp hnew with rfl
              rw [hetool]
              exact hI.tool_lt t htmem
          · intro t' ht'
            rcases List.mem_map.mp ht' with ⟨x, hx, rfl⟩
            by_cases hxe : (x.inventory_id == iid) = true
            · rw [if_pos hxe, applyFields_maint_life t b ety hmt, hbaseid,
                htoolid, sumLife_append,
                sumLife_singleton_match _ _ hetool helive, hlc,
                hI.life_eq t htmem]
              ring
            · rw [if_neg hxe]
              have hxne := hxt_ne x hx hxe
              have hz : sumLife [newMaintEvent db t b ety now] x.tool_id =
                  0 := by
                apply sumLife_fresh
                intro e he
                rcases List.mem_singleton.mp he with rfl
                rw [hetool]
                exact fun hc => hxne hc.symm
              rw [sumLife_append, hz, add_zero]
              exact hI.life_eq x hx
          · intro t' ht'
            rcases List.mem_map.mp ht' with ⟨x, hx, rfl⟩
            by_cases hxe : (x.inventory_id == iid) = true
            · rw [if_pos hxe, htoolid, applyFields_maint_life t b ety hmt]
              have hge : lastLifeAtEvent db.ledger t.tool_id ≤
                  (newMaintEvent db t b ety now).tool_life_at_event := by
                rw [hI.last_eq t htmem, hetl]
                omega
              rw [lastLife_append_last db.ledger t.tool_id _ hetool helive
                hge, hetl]
            · rw [if_neg hxe]
              have hxne := hxt_ne x hx hxe
              rw [lastLife_append_other db.ledger x.tool_id _
                (fun hc => hxne ((hetool ▸ hc : _)).symm)]
              exact hI.last_eq x hx

/-- A single live-path operation preserves the life invariant. -/
theorem lifeInv_step (db : DB) (op : Op) (hv : LiveOp op)
    (hI : LifeInv db) : LifeInv (stepOp db op) := by
  cases op with
  | create u b => exact lifeInv_create u b db hI
  | importTools u ts now => exact absurd hv id
  | update u iid b now => exact lifeInv_update u iid b now db hv hI
  | reverse h => exact absurd hv id

/-- The life invariant holds in every state reachable by live-path
operations from an initial database. -/
theorem lifeInv_runOps (fs : List Int) (ops : List Op)
    (hv : ∀ op ∈ ops, LiveOp op) : LifeInv (runOps (initDB fs) ops) := by
  unfold runOps
  suffices h : ∀ (ops : List Op) (db0 : DB), (∀ op ∈ ops, LiveOp op) →
      LifeInv db0 → LifeInv (ops.foldl stepOp db0) by
    exact h ops (initDB fs) hv (lifeInv_init fs)
  intro ops
  induction ops with
  | nil =>
    intro db0 _ hI0
    exact hI0
  | cons op rest ih =>
    intro db0 hv0 hI0
    rw [List.foldl_cons]
    exact ih (stepOp db0 op)
      (fun o ho => hv0 o (List.mem_cons_of_mem op ho))
      (lifeInv_step db0 op (hv0 op (List.mem_cons_self op rest)) hI0)

/-- C1 counterexample: the life half of the invariant fails on a
reachable state.  After the single operation sequence consisting of one
historical import — the spec's own worked example with
`current_tool_life = 150` supplied — the imported tool carries
`current_tool_life = 150` while
`baseline_tool_life + Σ life_consumed = 150 + (100 + 50) = 300`, because
the importer stores the caller-supplied value into both life columns and
additionally replays the events into the ledger. -/
theorem counters_match_ledger_counterexample :
    ¬ (∀ t ∈ (runOps (initDB [1])
          [Op.importTools uW [importSpecWithLife] 9]).inventory,
        t.current_tool_life = t.baseline_tool_life +
          sumLife (runOps (initDB [1])
            [Op.importTools uW [importSpecWithLife] 9]).ledger
            t.tool_id) := by
  decide

/-- A concrete valid creation body for the amended-claim witness. -/
def cbW : CreateBody :=
  { material_id := some 5, batch_id := some "B1", tool_name := some "T1"
    current_factory_id := some 1, type := some "cutting" }

/-- C1 (amended): after any sequence of creations, historical imports,
maintenance-event applications and reversals whose requests are
well-formed (creation supplies no seed counters and import lifecycle
events use only the three known event types), every tool's
`number_of_regrinding` and `number_of_resegmentation` equal the counts of
its non-deleted "regrinding" and "resegmentation" ledger events; and
after any sequence of creations and updates with non-negative consumed
amounts (the live path — no imports or reversals), every tool's
`current_tool_life` equals `baseline_tool_life` plus the sum of
`life_consumed` over its non-deleted ledger events. -/
theorem counters_match_ledger_amended :
    (∀ (fs : List Int) (ops : List Op), (∀ op ∈ ops, OpValid op) →
      ∀ t ∈ (runOps (initDB fs) ops).inventory,
        t.number_of_regrinding =
          (countType (runOps (initDB fs) ops).ledger t.tool_id
            "regrinding" : Int) ∧
        t.number_of_resegmentation =
          (countType (runOps (initDB fs) ops).ledger t.tool_id
            "resegmentation" : Int)) ∧
    (∀ (fs : List Int) (ops : List Op), (∀ op ∈ ops, LiveOp op) →
      ∀ t ∈ (runOps (initDB fs) ops).inventory,
        t.current_tool_life = t.baseline_tool_life +
          sumLife (runOps (initDB fs) ops).ledger t.tool_id) := by
  constructor
  · intro fs ops hv t ht
    have hI := counterInv_runOps fs ops hv
    exact ⟨hI.regrind_eq t ht, hI.reseg_eq t ht⟩
  · intro fs ops hv t ht
    exact (lifeInv_runOps fs ops hv).life_eq t ht

/-- The amended C1 instantiated on concrete operation sequences: an
imported batch for the counter half, and a create-then-maintain pair for
the life half. -/
theorem counters_match_ledger_amended_witness :
    (∀ op ∈ [Op.importTools uW [importSpecWithLife] 9], OpValid op) ∧
    (∀ op ∈ [Op.create uW cbW, Op.update uW 1 bW 5], LiveOp op) ∧
    (∀ t ∈ (runOps (initDB [1])
        [Op.importTools uW [importSpecWithLife] 9]).inventory,
      t.number_of_regrinding =
        (countType (runOps (initDB [1])
          [Op.importTools uW [importSpecWithLife] 9]).ledger t.tool_id
          "regrinding" : Int) ∧
      t.number_of_resegmentation =
        (countType (runOps (initDB [1])
          [Op.importTools uW [importSpecWithLife] 9]).ledger t.tool_id
          "resegmentation" : Int)) ∧
    (∀ t ∈ (runOps (initDB [1])
        [Op.create uW cbW, Op.update uW 1 bW 5]).inventory,
      t.current_tool_life = t.baseline_tool_life +
        sumLife (runOps (initDB [1])
          [Op.create uW cbW, Op.update uW 1 bW 5]).ledger t.tool_id) := by
  have hv1 : ∀ op ∈ [Op.importTools uW [importSpecWithLife] 9],
      OpValid op := by
    intro op hop
    rcases List.mem_singleton.mp hop with rfl
    intro i hi
    rcases List.mem_singleton.mp hi with rfl
    exact (by decide : ∀ ev ∈ specLifecycle, ev.event_type = "initial" ∨
      ev.event_type = "regrinding" ∨ ev.event_type = "resegmentation")
  have hv2 : ∀ op ∈ [Op.create uW cbW, Op.update uW 1 bW 5], LiveOp op := by
    intro op hop
    rcases List.mem_cons.mp hop with rfl | hop2
    · exact True.intro
    · rcases List.mem_singleton.mp hop2 with rfl
      exact (by decide : (0 : Int) ≤ jsOr bW.life_consumed 0)
  exact ⟨hv1, hv2, counters_match_ledger_amended.1 [1] _ hv1,
    counters_match_ledger_amended.2 [1] _ hv2⟩

end PulseApi
